import Mathlib

/-!
Verification of the jsonformatter repository core: the tolerant JSON
repairer (`fixJson`), the canonical formatter (`formatJson` / `minifyJson`),
the dot/bracket path evaluator (`evaluatePath`), the tree-view matching and
collapse defaults (`matchesSearch`, initial collapse state), and the session
controller (`pushUndo`, `handleUndo`, `handleFormat`, `handleMinify`).

Modelling conventions:
* JSON numbers are modelled exactly as `mant * 10 ^ e10` (integer mantissa and
  decimal exponent) instead of IEEE doubles; parsing and serialisation are
  exact, which realises the spec's requirement that numbers round-trip to a
  numerically equal value.
* Strings are Lean strings (sequences of Unicode scalar values); lone UTF-16
  surrogates arising from pathological escape sequences degrade to the
  default character, a corner the shallow embedding does not track.
* Objects are ordered field lists; the JS engine's overwrite of duplicate
  keys inside one object literal is not modelled (no claim depends on it).
* The regex-driven repair passes are modelled as left-to-right scanners that
  reproduce the leftmost-match, alternation-order semantics of the source
  regular expressions.
-/

namespace JsonFmt

/-- JSON whitespace accepted by the strict parser (as in `JSON.parse`). -/
def isJsonWs (c : Char) : Bool :=
  c = ' ' || c = '\t' || c = '\n' || c = '\r'

/-- Drop leading JSON whitespace. -/
def skipWs (cs : List Char) : List Char :=
  cs.dropWhile isJsonWs

/-- The universal in-memory JSON value: the result of `JSON.parse`.
Numbers are `mant * 10 ^ e10` exactly. -/
inductive JsonValue where
  | null
  | bool (b : Bool)
  | num (mant : Int) (e10 : Int)
  | str (s : String)
  | arr (elems : List JsonValue)
  | obj (fields : List (String × JsonValue))
deriving Repr

/-- Hexadecimal digit value, as used by the `\uXXXX` escape. -/
def hexVal (c : Char) : Option Nat :=
  if '0' ≤ c ∧ c ≤ '9' then some (c.toNat - 48)
  else if 'a' ≤ c ∧ c ≤ 'f' then some (c.toNat - 87)
  else if 'A' ≤ c ∧ c ≤ 'F' then some (c.toNat - 55)
  else none

/-- Four hex digits to a code unit. -/
def hex4 (a b c d : Char) : Option Nat :=
  match hexVal a, hexVal b, hexVal c, hexVal d with
  | some x, some y, some z, some w => some (((x * 16 + y) * 16 + z) * 16 + w)
  | _, _, _, _ => none

/-- String-body scanner, positioned just after the opening quote, producing
the sequence of UTF-16-style code units (raw scalar values pass through
unchanged).  Handles the JSON escapes and rejects raw control characters,
as `JSON.parse` does. -/
def parseUnits : List Nat → List Char → Except String (List Nat × List Char)
  | _, [] => .error "Unterminated string"
  | acc, c :: rest =>
    if c = '"' then .ok (acc.reverse, rest)
    else if c = '\\' then
      match rest with
      | [] => .error "Bad escape in string"
      | d :: rest2 =>
        if d = 'u' then
          match rest2 with
          | h1 :: h2 :: h3 :: h4 :: rest3 =>
            match hex4 h1 h2 h3 h4 with
            | none => .error "Bad Unicode escape"
            | some code => parseUnits (code :: acc) rest3
          | _ => .error "Bad escape in string"
        else if d = '"' then parseUnits (34 :: acc) rest2
        else if d = '\\' then parseUnits (92 :: acc) rest2
        else if d = '/' then parseUnits (47 :: acc) rest2
        else if d = 'b' then parseUnits (8 :: acc) rest2
        else if d = 'f' then parseUnits (12 :: acc) rest2
        else if d = 'n' then parseUnits (10 :: acc) rest2
        else if d = 'r' then parseUnits (13 :: acc) rest2
        else if d = 't' then parseUnits (9 :: acc) rest2
        else .error "Bad escape in string"
    else if c.toNat < 32 then .error "Bad control character in string"
    else parseUnits (c.toNat :: acc) rest

/-- Recombine UTF-16 surrogate pairs produced by `\u` escapes into scalar
values, as JS strings do implicitly; a lone surrogate degrades to the
default character (a JS string would keep the lone unit). -/
def unitsToChars : List Nat → List Char
  | [] => []
  | [u] => [Char.ofNat u]
  | u :: v :: rest =>
    if 0xD800 ≤ u ∧ u ≤ 0xDBFF ∧ 0xDC00 ≤ v ∧ v ≤ 0xDFFF then
      Char.ofNat (0x10000 + (u - 0xD800) * 0x400 + (v - 0xDC00)) :: unitsToChars rest
    else Char.ofNat u :: unitsToChars (v :: rest)

/-- Full string-literal body parse: code units, then surrogate pairing. -/
def parseStr (cs : List Char) : Except String (String × List Char) :=
  match parseUnits [] cs with
  | .ok (us, rest) => .ok (String.mk (unitsToChars us), rest)
  | .error e => .error e

/-- Digit run at the head of the input. -/
def spanDigits (cs : List Char) : List Char × List Char :=
  cs.span Char.isDigit

/-- Numeric value of a big-endian run of decimal digit characters. -/
def digitsVal (ds : List Char) : Nat :=
  ds.foldl (fun a c => a * 10 + (c.toNat - 48)) 0

/-- Optional exponent part (`e`/`E`, optional sign, digits). -/
def parseExpPart (cs : List Char) : Except String (Int × List Char) :=
  match cs with
  | [] => .ok (0, cs)
  | c :: rest =>
    if c = 'e' || c = 'E' then
      let sr : Int × List Char :=
        match rest with
        | [] => (1, rest)
        | d :: r =>
          if d = '+' then (1, r) else if d = '-' then (-1, r) else (1, rest)
      let ds := spanDigits sr.2
      if ds.1 = [] then .error "Missing exponent digits"
      else .ok (sr.1 * (digitsVal ds.1 : Int), ds.2)
    else .ok (0, cs)

/-- JSON number parser (strict grammar: optional minus, integer part with no
leading zero, optional fraction, optional exponent), producing the exact
value `mant * 10 ^ e10`. -/
def parseNumber (cs : List Char) : Except String ((Int × Int) × List Char) :=
  let s0 : Bool × List Char :=
    match cs with
    | [] => (false, cs)
    | c :: r => if c = '-' then (true, r) else (false, cs)
  let d0 := spanDigits s0.2
  if d0.1 = [] then .error "Invalid number"
  else if 1 < d0.1.length ∧ d0.1.headI = '0' then .error "Leading zero in number"
  else
    let f0 : List Char × List Char × Bool :=
      match d0.2 with
      | [] => ([], d0.2, true)
      | c :: r =>
        if c = '.' then
          let f := spanDigits r
          (f.1, f.2, !f.1.isEmpty)
        else ([], d0.2, true)
    if !f0.2.2 then .error "Missing fraction digits"
    else
      match parseExpPart f0.2.1 with
      | .error e => .error e
      | .ok (ev, cs4) =>
        let mNat := digitsVal d0.1 * 10 ^ f0.1.length + digitsVal f0.1
        let m : Int := if s0.1 then -(mNat : Int) else (mNat : Int)
        .ok ((m, ev - (f0.1.length : Int)), cs4)

mutual

/-- Strict JSON value parser (`JSON.parse` grammar), fuel-indexed so that it
is structurally recursive and evaluates inside the kernel. -/
def parseValue : Nat → List Char → Except String (JsonValue × List Char)
  | 0, _ => .error "Out of fuel"
  | n + 1, cs =>
    match skipWs cs with
    | [] => .error "Unexpected end of JSON input"
    | c :: cs1 =>
      if c = '\x7b' then
        match skipWs cs1 with
        | [] => .error "Unexpected end of JSON input"
        | d :: ds =>
          if d = '\x7d' then .ok (.obj [], ds)
          else
            match parseFields n cs1 with
            | .ok (fs, rest) => .ok (.obj fs, rest)
            | .error e => .error e
      else if c = '[' then
        match skipWs cs1 with
        | [] => .error "Unexpected end of JSON input"
        | d :: ds =>
          if d = ']' then .ok (.arr [], ds)
          else
            match parseItems n cs1 with
            | .ok (xs, rest) => .ok (.arr xs, rest)
            | .error e => .error e
      else if c = '"' then
        match parseStr cs1 with
        | .ok (s, rest) => .ok (.str s, rest)
        | .error e => .error e
      else if c = 't' then
        match cs1 with
        | 'r' :: 'u' :: 'e' :: rest => .ok (.bool true, rest)
        | _ => .error "Unexpected token"
      else if c = 'f' then
        match cs1 with
        | 'a' :: 'l' :: 's' :: 'e' :: rest => .ok (.bool false, rest)
        | _ => .error "Unexpected token"
      else if c = 'n' then
        match cs1 with
        | 'u' :: 'l' :: 'l' :: rest => .ok (.null, rest)
        | _ => .error "Unexpected token"
      else if c = '-' ∨ c.isDigit then
        match parseNumber (c :: cs1) with
        | .ok (me, rest) => .ok (.num me.1 me.2, rest)
        | .error e => .error e
      else .error "Unexpected token"

/-- Non-empty array tail: value, then `,` and more items or `]`. -/
def parseItems : Nat → List Char → Except String (List JsonValue × List Char)
  | 0, _ => .error "Out of fuel"
  | n + 1, cs =>
    match parseValue n cs with
    | .error e => .error e
    | .ok (v, rest) =>
      match skipWs rest with
      | [] => .error "Expected comma or closing bracket"
      | d :: rest2 =>
        if d = ',' then
          match parseItems n rest2 with
          | .ok (xs, rest3) => .ok (v :: xs, rest3)
          | .error e => .error e
        else if d = ']' then .ok ([v], rest2)
        else .error "Expected comma or closing bracket"

/-- Non-empty object tail: string key, `:`, value, then `,` or `}`. -/
def parseFields : Nat → List Char → Except String (List (String × JsonValue) × List Char)
  | 0, _ => .error "Out of fuel"
  | n + 1, cs =>
    match skipWs cs with
    | [] => .error "Expected string key"
    | d0 :: cs1 =>
      if d0 = '"' then
        match parseStr cs1 with
        | .error e => .error e
        | .ok (k, rest) =>
          match skipWs rest with
          | [] => .error "Expected colon"
          | d1 :: rest2 =>
            if d1 = ':' then
              match parseValue n rest2 with
              | .error e => .error e
              | .ok (v, rest3) =>
                match skipWs rest3 with
                | [] => .error "Expected comma or closing brace"
                | d2 :: rest4 =>
                  if d2 = ',' then
                    match parseFields n rest4 with
                    | .ok (fs, rest5) => .ok ((k, v) :: fs, rest5)
                    | .error e => .error e
                  else if d2 = '\x7d' then .ok ([(k, v)], rest4)
                  else .error "Expected comma or closing brace"
            else .error "Expected colon"
      else .error "Expected string key"

end

/-- `JSON.parse`: parse a complete JSON text, allowing surrounding
whitespace and rejecting trailing characters. -/
def parseJson (s : String) : Except String JsonValue :=
  match parseValue (s.length + 1) s.data with
  | .ok (v, rest) =>
    if skipWs rest = [] then .ok v else .error "Unexpected non-whitespace after JSON"
  | .error e => .error e

/-! ### The repair passes of `fixJson`

Each regex replace of the source is modelled as a left-to-right scanner:
at every position it attempts the regex alternatives in order; on a match it
emits the replacement and resumes after the match, otherwise it emits the
character and moves one position right, exactly like a global regex replace. -/

/-- Generic fueled scanner; `step st c cs` inspects the character `c` (whose
tail is `cs`) in scanner state `st` and returns the emitted output, the next
state, and the remaining input.  Fuel `length + 1` is always sufficient when
every step leaves a remainder no longer than `cs`. -/
def scanSt {σ : Type} (step : σ → Char → List Char → List Char × σ × List Char) :
    Nat → σ → List Char → List Char
  | _, _, [] => []
  | 0, _, cs => cs
  | f + 1, st, c :: cs =>
    match step st c cs with
    | (out, st2, rest) => out ++ scanSt step f st2 rest

/-- Match the regex `q(?:[^q\]|\.)*q` with `cs` positioned just after the
opening quote `q`; returns the body verbatim (without the quotes) and the
rest.  The Boolean is true when the previous character was a still-pending
backslash.  The `.` of the escape alternative does not match a newline, so
a backslash-newline makes the whole literal fail to match, as in the
source regexes. -/
def matchQuoted (q : Char) : Bool → List Char → List Char → Option (List Char × List Char)
  | true, acc, c :: rest =>
    if c = '\n' then none else matchQuoted q false (c :: '\\' :: acc) rest
  | false, acc, c :: rest =>
    if c = q then some (acc.reverse, rest)
    else if c = '\\' then matchQuoted q true acc rest
    else matchQuoted q false (c :: acc) rest
  | _, _, [] => none

/-- Pass 1 step: `("(?:[^"\]|\.)*")|\/\/[^\n]*` — keep string literals
verbatim, delete line comments up to (not including) the newline. -/
def stepLC : Unit → Char → List Char → List Char × Unit × List Char :=
  fun _ c cs =>
    if c = '"' then
      match matchQuoted '"' false [] cs with
      | some (body, rest) => ('"' :: (body ++ ['"']), (), rest)
      | none => ([c], (), cs)
    else if c = '/' then
      match cs with
      | d :: cs2 =>
        if d = '/' then ([], (), cs2.dropWhile (fun x => !(x = '\n')))
        else ([c], (), cs)
      | [] => ([c], (), cs)
    else ([c], (), cs)

/-- Pass 1: strip `//` line comments outside double-quoted strings. -/
def stripLineComments (cs : List Char) : List Char :=
  scanSt stepLC (cs.length + 1) () cs

/-- Rest of the input after the first `*/`, if any (the lazy `[\s\S]*?`). -/
def findBlockClose : List Char → Option (List Char)
  | [] => none
  | [_] => none
  | c :: d :: cs =>
    if c = '*' ∧ d = '/' then some cs
    else findBlockClose (d :: cs)

/-- Pass 2 step: `("(?:[^"\]|\.)*")|\/\*[\s\S]*?\*\/` — keep string literals
verbatim, delete block comments (unterminated ones do not match). -/
def stepBC : Unit → Char → List Char → List Char × Unit × List Char :=
  fun _ c cs =>
    if c = '"' then
      match matchQuoted '"' false [] cs with
      | some (body, rest) => ('"' :: (body ++ ['"']), (), rest)
      | none => ([c], (), cs)
    else if c = '/' then
      match cs with
      | d :: cs2 =>
        if d = '*' then
          match findBlockClose cs2 with
          | some rest => ([], (), rest)
          | none => ([c], (), cs)
        else ([c], (), cs)
      | [] => ([c], (), cs)
    else ([c], (), cs)

/-- Pass 2: strip `/* ... */` block comments outside double-quoted strings. -/
def stripBlockComments (cs : List Char) : List Char :=
  scanSt stepBC (cs.length + 1) () cs

/-- JS `\w`: ASCII letters, digits and underscore. -/
def isWordChar (c : Char) : Bool :=
  c.isAlphanum || c = '_'

/-- Does a word boundary (`\b`) follow here? -/
def wordEndOk : List Char → Bool
  | [] => true
  | d :: _ => !isWordChar d

/-- Pass 3 step for one token: `\btok\b` → `rep`.  The Boolean state records
whether the previous original character was a non-word character (or the
start of the input), i.e. whether `\b` holds before the current position.
Note there is no protection of double-quoted strings in this pass, exactly
as in the source. -/
def stepWord (tok rep : List Char) : Bool → Char → List Char → List Char × Bool × List Char :=
  fun prevOk c cs =>
    if prevOk && tok.isPrefixOf (c :: cs) && wordEndOk ((c :: cs).drop tok.length) then
      (rep, !isWordChar (tok.getLastD c), (c :: cs).drop tok.length)
    else ([c], !isWordChar c, cs)

/-- Global word-boundary replace `s.replace(/\btok\b/g, rep)`. -/
def replaceWord (tok rep : String) (cs : List Char) : List Char :=
  scanSt (stepWord tok.data rep.data) (cs.length + 1) true cs

/-- Pass 3: `True`→`true`, `False`→`false`, `None`→`null`,
`undefined`→`null`, applied sequentially in that order. -/
def replaceLiterals (cs : List Char) : List Char :=
  replaceWord "undefined" "null"
    (replaceWord "None" "null"
      (replaceWord "False" "false"
        (replaceWord "True" "true" cs)))

/-- `inner.replace(/\\'/g, "'")`. -/
def unescapeSq : List Char → List Char
  | '\\' :: '\'' :: rest => '\'' :: unescapeSq rest
  | c :: rest => c :: unescapeSq rest
  | [] => []

/-- `inner.replace(/"/g, '\\"')`. -/
def escapeDq : List Char → List Char
  | '"' :: rest => '\\' :: '"' :: escapeDq rest
  | c :: rest => c :: escapeDq rest
  | [] => []

/-- Pass 4 step: `'([^'\]*(?:\.[^'\]*)*)'` → double-quoted with `\'`
unescaped and `"` escaped. -/
def stepSq : Unit → Char → List Char → List Char × Unit × List Char :=
  fun _ c cs =>
    if c = '\'' then
      match matchQuoted '\'' false [] cs with
      | some (body, rest) => ('"' :: (escapeDq (unescapeSq body) ++ ['"']), (), rest)
      | none => ([c], (), cs)
    else ([c], (), cs)

/-- Pass 4: convert single-quoted string literals to double-quoted ones. -/
def convertSingleQuotes (cs : List Char) : List Char :=
  scanSt stepSq (cs.length + 1) () cs

/-- JS `\s` (ASCII part): space, tab, newline, carriage return, vertical
tab, form feed. -/
def isJsWs (c : Char) : Bool :=
  c = ' ' || c = '\t' || c = '\n' || c = '\r' || c = '\x0b' || c = '\x0c'

/-- First character of a JS identifier (`[a-zA-Z_$]`). -/
def isIdentStart (c : Char) : Bool :=
  c.isAlpha || c = '_' || c = '$'

/-- Later character of a JS identifier (`[a-zA-Z0-9_$]`). -/
def isIdentChar (c : Char) : Bool :=
  c.isAlphanum || c = '_' || c = '$'

/-- After a `{` or `,`: match `\s*` + identifier + `\s*:`, returning the two
whitespace runs, the identifier and the rest after the colon. -/
def matchKey (cs : List Char) : Option (List Char × List Char × List Char × List Char) :=
  let w1 := cs.span isJsWs
  match w1.2 with
  | d :: ds =>
    if isIdentStart d then
      let idt := ds.span isIdentChar
      let w2 := idt.2.span isJsWs
      match w2.2 with
      | ':' :: rest => some (w1.1, d :: idt.1, w2.1, rest)
      | _ => none
    else none
  | [] => none

/-- Pass 5 step: `([{,]\s*)([a-zA-Z_$][a-zA-Z0-9_$]*)(\s*:)` → `$1"$2"$3`. -/
def stepKeys : Unit → Char → List Char → List Char × Unit × List Char :=
  fun _ c cs =>
    if c = '\x7b' || c = ',' then
      match matchKey cs with
      | some (w1, idt, w2, rest) =>
        (c :: (w1 ++ '"' :: (idt ++ '"' :: (w2 ++ [':'])) ), (), rest)
      | none => ([c], (), cs)
    else ([c], (), cs)

/-- Pass 5: wrap bare object keys in double quotes. -/
def quoteBareKeys (cs : List Char) : List Char :=
  scanSt stepKeys (cs.length + 1) () cs

/-- Pass 6 step: `,(\s*[}\]])` → `$1`. -/
def stepTrailing : Unit → Char → List Char → List Char × Unit × List Char :=
  fun _ c cs =>
    if c = ',' then
      let w := cs.span isJsWs
      match w.2 with
      | '\x7d' :: rest => (w.1 ++ ['\x7d'], (), rest)
      | ']' :: rest => (w.1 ++ [']'], (), rest)
      | _ => ([c], (), cs)
    else ([c], (), cs)

/-- Pass 6: remove trailing commas before `}` or `]`. -/
def removeTrailingCommas (cs : List Char) : List Char :=
  scanSt stepTrailing (cs.length + 1) () cs

/-- The full repair pipeline of `fixJson`, passes 1-6 in source order. -/
def applyRepairPasses (s : String) : String :=
  String.mk
    (removeTrailingCommas
      (quoteBareKeys
        (convertSingleQuotes
          (replaceLiterals
            (stripBlockComments
              (stripLineComments s.data))))))

/-- Body of a double-quoted string literal as matched by the repair-pass
regexes `"(?:[^"\]|\.)*"`: characters other than quote and backslash, with
every backslash followed by one non-newline character. -/
inductive WfBody : List Char → Prop
  | nil : WfBody []
  | chr (c : Char) (cs : List Char) : c ≠ '"' → c ≠ '\\' → WfBody cs → WfBody (c :: cs)
  | esc (d : Char) (cs : List Char) : d ≠ '\n' → WfBody cs → WfBody ('\\' :: d :: cs)

/-- JS `String.prototype.trim` (ASCII whitespace set): drop leading and
trailing whitespace. -/
def jsTrim (s : String) : String :=
  String.mk (((s.data.dropWhile isJsWs).reverse.dropWhile isJsWs).reverse)

/-- `{ fixed, wasFixed, error }` returned by `fixJson`. -/
structure RepairResult where
  fixed : String
  wasFixed : Bool
  error : Option String
deriving Repr

/-- `fixJson(raw)` from `jsonUtils` (the version shipping with the main
app): empty check, strict parse, repair pipeline, re-parse, and on final
failure the error of parsing the original text. -/
def fixJson (raw : String) : RepairResult :=
  if jsTrim raw = "" then ⟨raw, false, some "Input is empty"⟩
  else
    match parseJson raw with
    | .ok _ => ⟨raw, false, none⟩
    | .error _ =>
      let s := applyRepairPasses raw
      match parseJson s with
      | .ok _ => ⟨s, true, none⟩
      | .error repairedMsg =>
        match parseJson raw with
        | .error origMsg => ⟨raw, false, some origMsg⟩
        | .ok _ => ⟨raw, false, some repairedMsg⟩

/-! ### Serialisation: `JSON.stringify` with an optional indent -/

/-- Big-endian decimal digits of `n` (fuel-indexed division loop). -/
def natDigitsAux : Nat → Nat → List Char
  | 0, _ => []
  | f + 1, n =>
    if n < 10 then [Nat.digitChar n]
    else natDigitsAux f (n / 10) ++ [Nat.digitChar (n % 10)]

/-- Decimal numeral of a natural number. -/
def natToChars (n : Nat) : List Char :=
  natDigitsAux (n + 1) n

/-- Decimal numeral of a natural number, as a string (JS `String(n)`). -/
def natStr (n : Nat) : String :=
  String.mk (natToChars n)

/-- Exact decimal serialisation of the number `m * 10 ^ e`: the mantissa,
then an exponent part when `e ≠ 0`.  Re-parsing recovers exactly `(m, e)`. -/
def printNum (m e : Int) : List Char :=
  (if m < 0 then ['-'] else []) ++ natToChars m.natAbs ++
    (if e = 0 then [] else 'e' :: ((if e < 0 then ['-'] else []) ++ natToChars e.natAbs))

/-- String-character escaping of `JSON.stringify`. -/
def escChar (c : Char) : List Char :=
  if c = '"' then ['\\', '"']
  else if c = '\\' then ['\\', '\\']
  else if c = '\x08' then ['\\', 'b']
  else if c = '\x0c' then ['\\', 'f']
  else if c = '\n' then ['\\', 'n']
  else if c = '\r' then ['\\', 'r']
  else if c = '\t' then ['\\', 't']
  else if c.toNat < 32 then
    ['\\', 'u', '0', '0', Nat.digitChar (c.toNat / 16), Nat.digitChar (c.toNat % 16)]
  else [c]

/-- Escape every character of a string body. -/
def escList : List Char → List Char
  | [] => []
  | c :: cs => escChar c ++ escList cs

/-- Serialise a string literal, quotes included. -/
def printStr (s : String) : List Char :=
  '"' :: (escList s.data ++ ['"'])

/-- `n` spaces. -/
def pad (n : Nat) : List Char :=
  List.replicate n ' '

/-- Newline plus indentation in pretty mode (`g > 0`); nothing in compact
mode (`g = 0`), matching `JSON.stringify`'s gap handling. -/
def nlPad (g ind : Nat) : List Char :=
  if g = 0 then [] else '\n' :: pad ind

/-- Separator between a key and its value: `:` compact, `: ` pretty. -/
def kvSep (g : Nat) : List Char :=
  ':' :: (if g = 0 then [] else [' '])

mutual

/-- `JSON.stringify(v, null, gap)` at indentation level `ind`:
compact when `gap = 0`, pretty-printed otherwise. -/
def printVal (g ind : Nat) : JsonValue → List Char
  | .null => "null".data
  | .bool true => "true".data
  | .bool false => "false".data
  | .num m e => printNum m e
  | .str s => printStr s
  | .arr [] => "[]".data
  | .arr (x :: xs) =>
    '[' :: (nlPad g (ind + g) ++ printItemsP g ind (x :: xs) ++ nlPad g ind ++ [']'])
  | .obj [] => "\x7b\x7d".data
  | .obj (f :: fs) =>
    '\x7b' :: (nlPad g (ind + g) ++ printFieldsP g ind (f :: fs) ++ nlPad g ind ++ ['\x7d'])

/-- Array elements, comma-separated (with pretty line breaks). -/
def printItemsP (g ind : Nat) : List JsonValue → List Char
  | [] => []
  | [x] => printVal g (ind + g) x
  | x :: y :: xs =>
    printVal g (ind + g) x ++ ',' :: (nlPad g (ind + g) ++ printItemsP g ind (y :: xs))

/-- Object fields, comma-separated (with pretty line breaks). -/
def printFieldsP (g ind : Nat) : List (String × JsonValue) → List Char
  | [] => []
  | [(k, v)] => printStr k ++ (kvSep g ++ printVal g (ind + g) v)
  | (k, v) :: f :: fs =>
    printStr k ++ (kvSep g ++ printVal g (ind + g) v ++
      ',' :: (nlPad g (ind + g) ++ printFieldsP g ind (f :: fs)))

end

/-- `JSON.stringify(v, null, n)`; the gap is clamped to at most 10
characters, and `0` yields the compact form, as in JS. -/
def stringify (v : JsonValue) (n : Nat) : String :=
  String.mk (printVal (min n 10) 0 v)

/-- `formatJson` from `jsonUtils`: parse strictly, serialise with the given
indent; invalid input fails with `Invalid JSON`. -/
def formatJson (jsonString : String) (indent : Nat) : Except String String :=
  match parseJson jsonString with
  | .ok v => .ok (stringify v indent)
  | .error _ => .error "Invalid JSON"

/-- `minifyJson` from `jsonUtils`: parse strictly, serialise compactly. -/
def minifyJson (jsonString : String) : Except String String :=
  match parseJson jsonString with
  | .ok v => .ok (stringify v 0)
  | .error _ => .error "Invalid JSON"

/-! ### The dot/bracket path evaluator (`evaluatePath` in JsonOutput) -/

/-- One token of the path tokenizer regex
`([^[.\]]+|\[\d+\]|\[['"][^'"]+['"]\])`. -/
inductive PathToken where
  | index (n : Nat)
  | quoted (k : String)
  | plain (k : String)
deriving Repr

/-- Characters excluded from a plain path token (`[^[.\]]`). -/
def isPlainPathChar (c : Char) : Bool :=
  !(c = '[' || c = '.' || c = ']')

/-- Match `\[\d+\]` with the input positioned after the `[`. -/
def matchIndexTok (cs : List Char) : Option (Nat × List Char) :=
  match cs.span Char.isDigit with
  | (ds, ']' :: rest) => if ds.isEmpty then none else some (digitsVal ds, rest)
  | _ => none

/-- Match `\[['"][^'"]+['"]\]` with the input positioned after the `[`;
returns the key with the (possibly mismatched) quotes already stripped. -/
def matchQuotedTok (cs : List Char) : Option (String × List Char) :=
  match cs with
  | q1 :: cs1 =>
    if q1 = '\'' || q1 = '"' then
      match cs1.span (fun d => !(d = '\'' || d = '"')) with
      | (body, q2 :: ']' :: rest) =>
        if (q2 = '\'' || q2 = '"') && !body.isEmpty then some (String.mk body, rest)
        else none
      | _ => none
    else none
  | [] => none

/-- `path.match(/([^[.\]]+|\[\d+\]|\[['"][^'"]+['"]\])/g)`: collect all
matches left to right, skipping characters that match nothing. -/
def pathTokens : Nat → List Char → List PathToken
  | 0, _ => []
  | _, [] => []
  | f + 1, c :: cs =>
    if c = '[' then
      match matchIndexTok cs with
      | some (n, rest) => .index n :: pathTokens f rest
      | none =>
        match matchQuotedTok cs with
        | some (k, rest) => .quoted k :: pathTokens f rest
        | none => pathTokens f cs
    else if c = '.' || c = ']' then pathTokens f cs
    else
      match (c :: cs).span isPlainPathChar with
      | (tok, rest) => .plain (String.mk tok) :: pathTokens f rest

/-- First-match lookup in an object's field list (JS own-property access;
`JSON.parse` objects have unique keys). -/
def lookupField : List (String × JsonValue) → String → Option JsonValue
  | [], _ => none
  | (k, v) :: rest, key => if k = key then some v else lookupField rest key

/-- A canonical array-index string: `String(i) == k` for some `i` (JS only
treats canonical numerals as element accesses). -/
def canonicalIndex (k : String) : Option Nat :=
  match k.data with
  | [] => none
  | d :: ds =>
    if (d :: ds).all Char.isDigit && (ds.isEmpty || !(d = '0')) then
      some (digitsVal (d :: ds))
    else none

/-- JS member access `current[key]` with a string key on a JSON value:
objects look up own properties; arrays answer `length` and canonical
numeric strings; strings answer `length` and characters; numbers and
booleans have no own properties.  Inherited prototype methods are not JSON
data and are modelled as absent. -/
def jsGetStr : JsonValue → String → Option JsonValue
  | .obj kvs, k => lookupField kvs k
  | .arr xs, k =>
    if k = "length" then some (.num xs.length 0)
    else
      match canonicalIndex k with
      | some i => xs.get? i
      | none => none
  | .str s, k =>
    if k = "length" then some (.num s.length 0)
    else
      match canonicalIndex k with
      | some i => (s.data.get? i).map (fun c => .str (String.mk [c]))
      | none => none
  | _, _ => none

/-- JS member access `current[n]` with a number: arrays index their
elements, objects look up the stringified numeral as a key, strings index
their characters. -/
def jsIndexNat : JsonValue → Nat → Option JsonValue
  | .arr xs, i => xs.get? i
  | .obj kvs, i => lookupField kvs (natStr i)
  | .str s, i => (s.data.get? i).map (fun c => .str (String.mk [c]))
  | _, _ => none

/-- The token loop of `evaluatePath`: `null`/`undefined` at the top of an
iteration yields `undefined`; otherwise apply the member access and
continue.  With no tokens left, the current value is returned. -/
def walkTokens : Option JsonValue → List PathToken → Option JsonValue
  | cur, [] => cur
  | none, _ :: _ => none
  | some .null, _ :: _ => none
  | some v, t :: ts =>
    walkTokens
      (match t with
       | .index n => jsIndexNat v n
       | .quoted k => jsGetStr v k
       | .plain k => jsGetStr v k) ts

/-- `path.replace(/^\$\.?/, '')`. -/
def stripDollar (cs : List Char) : List Char :=
  match cs with
  | '$' :: '.' :: rest => rest
  | '$' :: rest => rest
  | _ => cs

/-- `evaluatePath(obj, path)` from JsonOutput: strip the optional `$`/`$.`,
return the root on an empty remainder, tokenize (no tokens at all is the
`match` returning `null`, i.e. `undefined`), then walk. -/
def evaluatePath (root : JsonValue) (path : String) : Option JsonValue :=
  let p := stripDollar path.data
  if p.isEmpty then some root
  else
    match pathTokens (p.length + 1) p with
    | [] => none
    | t :: ts => walkTokens (some root) (t :: ts)

/-! ### Tree-view search matching and collapse defaults -/

/-- ASCII lowercase, as the relevant fragment of `toLowerCase`. -/
def jsLower (s : String) : String :=
  String.mk (s.data.map Char.toLower)

/-- Is `t` a contiguous subsequence of `s`? -/
def containsSeq : List Char → List Char → Bool
  | t, [] => t.isEmpty
  | t, c :: cs => t.isPrefixOf (c :: cs) || containsSeq t cs

/-- JS `s.includes(t)`. -/
def jsIncludes (s t : String) : Bool :=
  containsSeq t.data s.data

/-- JS `String(value)` on primitive JSON values (numbers print exactly; the
IEEE shortest-round-trip format is abstracted by the exact number model).
The container cases are not consulted by `matchesSearch`. -/
def jsToString : JsonValue → String
  | .null => "null"
  | .bool true => "true"
  | .bool false => "false"
  | .num m e => String.mk (printNum m e)
  | .str s => s
  | .arr _ => ""
  | .obj _ => ""

/-- `matchesSearch` of a tree node (JsonTreeView's JsonNode; JsonOutput's
JsonItem carries the same logic): empty term matches; then the key name is
checked; then, only for values that are neither `null` nor objects/arrays
(`value !== null && typeof value !== 'object'`), the string representation.
The search term is already lowercased by the caller. -/
def matchesSearch (keyName : Option String) (value : JsonValue) (searchTerm : String) : Bool :=
  if searchTerm = "" then true
  else if (match keyName with
           | some k => jsIncludes (jsLower k) searchTerm
           | none => false) then true
  else
    match value with
    | .null => false
    | .arr _ => false
    | .obj _ => false
    | v => jsIncludes (jsLower (jsToString v)) searchTerm

/-- The search predicate in the words of the spec/claim C6: the key name
contains the term, or the value is primitive **or null** and its string
representation contains the term; an empty term matches every node. -/
def specMatchesSearch (keyName : Option String) (value : JsonValue) (term : String) : Bool :=
  (term == "") ||
  (match keyName with
   | some k => jsIncludes (jsLower k) term
   | none => false) ||
  (match value with
   | .arr _ => false
   | .obj _ => false
   | v => jsIncludes (jsLower (jsToString v)) term)

namespace JsonNode

/-- Initial collapse state of a JsonTreeView node, from
`useState(depth > 3)` (root has depth 0). -/
def initialCollapsed (depth : Nat) : Bool :=
  decide (depth > 3)

end JsonNode

namespace JsonItem

/-- Initial collapse state of a JsonOutput/JsonItem node, from
`useState(false)`: the component receives no depth prop, so the default is
`false` for a node at any depth. -/
def initialCollapsedAt (_depth : Nat) : Bool :=
  false

end JsonItem

/-! ### Session state controller (the main `JsonFormatter` component) -/

/-- `viewMode`: raw textarea or collapsible tree. -/
inductive ViewMode where
  | edit
  | tree
deriving Repr, DecidableEq

/-- The session state fields read or written by format/minify/undo. -/
structure AppState where
  value : String
  formattedVal : String
  error : String
  viewMode : ViewMode
  activeId : Option Nat
  undoStack : List String
  toast : String
deriving Repr

/-- `pushUndo`: skip when the current text is empty (falsy), else prepend
and truncate to the 50 most recent entries. -/
def pushUndo (cur : String) (stack : List String) : List String :=
  if cur = "" then stack else (cur :: stack).take 50

/-- `handleUndo`: no-op on an empty stack; otherwise pop the newest entry,
restore it as the document text, clear the error, force raw-edit view,
clear the active snippet, and toast. -/
def handleUndo (s : AppState) : AppState :=
  match s.undoStack with
  | [] => s
  | prev :: rest =>
    { s with undoStack := rest, value := prev, error := "", viewMode := .edit,
             activeId := none, toast := "Undone" }

/-- `handleFormat`: clear the error, trim, bail out on empty text, run
`fixJson`; on a repair error only set the error message; otherwise push
undo, format, switch to tree view.  (The final `.error` branch models the
state left behind by the JS exception `formatJson` would throw; it is
unreachable because `fixJson` only reports success on parseable text.) -/
def handleFormat (s : AppState) (indentSize : Nat) : AppState :=
  let raw := jsTrim s.value
  if raw = "" then { s with error := "" }
  else
    let r := fixJson raw
    match r.error with
    | some msg => { s with error := msg }
    | none =>
      match formatJson r.fixed indentSize with
      | .ok pretty =>
        { s with error := "", undoStack := pushUndo s.value s.undoStack,
                 value := pretty, formattedVal := pretty, viewMode := .tree,
                 toast := if r.wasFixed then "Auto-fixed & Formatted!" else "Formatted!" }
      | .error _ => { s with error := "", undoStack := pushUndo s.value s.undoStack }

/-- `handleMinify`: same shape as `handleFormat` but minifies, stays in
edit view and does not touch `formattedVal`. -/
def handleMinify (s : AppState) : AppState :=
  let raw := jsTrim s.value
  if raw = "" then { s with error := "" }
  else
    let r := fixJson raw
    match r.error with
    | some msg => { s with error := msg }
    | none =>
      match minifyJson r.fixed with
      | .ok mini =>
        { s with error := "", undoStack := pushUndo s.value s.undoStack,
                 value := mini, viewMode := .edit,
                 toast := if r.wasFixed then "Auto-fixed & Minified!" else "Minified!" }
      | .error _ => { s with error := "", undoStack := pushUndo s.value s.undoStack }

/-! ### Auxiliary measures for the parse/print round-trip -/

mutual

/-- Node count (including list spine) of a JSON value: a fuel bound for
re-parsing its serialisation. -/
def sizeV : JsonValue → Nat
  | .null => 1
  | .bool _ => 1
  | .num _ _ => 1
  | .str _ => 1
  | .arr xs => 1 + sizeItems xs
  | .obj fs => 1 + sizeFields fs

/-- Node count of an array's elements. -/
def sizeItems : List JsonValue → Nat
  | [] => 0
  | x :: xs => 1 + sizeV x + sizeItems xs

/-- Node count of an object's fields. -/
def sizeFields : List (String × JsonValue) → Nat
  | [] => 0
  | f :: fs => 1 + sizeV f.2 + sizeFields fs

end

/-- Only JSON whitespace characters. -/
def wsOnly (ws : List Char) : Bool :=
  ws.all isJsonWs

/-- The continuation cannot extend a just-parsed number literal. -/
def numBreak : List Char → Bool
  | [] => true
  | c :: _ => !(c.isDigit || c = '.' || c = 'e' || c = 'E')

/-! ## Theorems -/

/-! ### Round-trip lemmas: whitespace and digits -/

/-- Leading JSON whitespace is skipped over an append. -/
theorem skipWs_append (ws cs : List Char) (h : wsOnly ws = true) :
    skipWs (ws ++ cs) = skipWs cs := by
  induction ws with
  | nil => rfl
  | cons c ws ih =>
    simp only [wsOnly, List.all_cons, Bool.and_eq_true] at h
    rw [List.cons_append]
    show (c :: (ws ++ cs)).dropWhile isJsonWs = skipWs cs
    rw [List.dropWhile_cons, if_pos h.1]
    exact ih h.2

/-- Padding is whitespace. -/
theorem wsOnly_pad (n : Nat) : wsOnly (pad n) = true := by
  simp only [wsOnly, pad, List.all_eq_true]
  intro c hc
  rw [List.eq_of_mem_replicate hc]
  rfl

/-- Pretty-printing gaps are whitespace. -/
theorem wsOnly_nlPad (g ind : Nat) : wsOnly (nlPad g ind) = true := by
  unfold nlPad
  split
  · rfl
  · simp only [wsOnly, List.all_cons, Bool.and_eq_true]
    exact ⟨rfl, wsOnly_pad ind⟩

/-- A whitespace run followed by whitespace is whitespace. -/
theorem wsOnly_append (a b : List Char) (ha : wsOnly a = true) (hb : wsOnly b = true) :
    wsOnly (a ++ b) = true := by
  simp only [wsOnly, List.all_eq_true] at *
  intro c hc
  rcases List.mem_append.mp hc with h | h
  · exact ha c h
  · exact hb c h

/-- Facts about a single decimal digit character. -/
theorem digitChar_facts (d : Nat) (hd : d < 10) :
    (Nat.digitChar d).isDigit = true ∧ (Nat.digitChar d).toNat - 48 = d ∧
      (0 < d → Nat.digitChar d ≠ '0') := by
  interval_cases d <;> exact ⟨rfl, rfl, by decide⟩

/-- The decimal numeral printer is correct: nonempty, all digits, value `n`,
and no leading zero when `n` is positive. -/
theorem natDigitsAux_spec :
    ∀ (f n : Nat), n < f →
      natDigitsAux f n ≠ [] ∧ (∀ c ∈ natDigitsAux f n, c.isDigit = true) ∧
        digitsVal (natDigitsAux f n) = n ∧ (0 < n → (natDigitsAux f n).headI ≠ '0') := by
  intro f
  induction f with
  | zero =>
    intro n h
    exact absurd h (Nat.not_lt_zero n)
  | succ f ih =>
    intro n h
    rw [natDigitsAux]
    by_cases h10 : n < 10
    · rw [if_pos h10]
      obtain ⟨hd1, hd2, hd3⟩ := digitChar_facts n h10
      refine ⟨by simp, ?_, ?_, ?_⟩
      · intro c hc
        rw [List.mem_singleton.mp hc]
        exact hd1
      · simp only [digitsVal, List.foldl_cons, List.foldl_nil]
        omega
      · intro hn
        simpa using hd3 hn
    · rw [if_neg h10]
      have hdiv : n / 10 < f := by
        have h1 : n / 10 < n := Nat.div_lt_self (by omega) (by omega)
        omega
      obtain ⟨hne, hdig, hval, hhead⟩ := ih (n / 10) hdiv
      obtain ⟨he1, he2, _⟩ := digitChar_facts (n % 10) (Nat.mod_lt n (by omega))
      refine ⟨by simp, ?_, ?_, ?_⟩
      · intro c hc
        rcases List.mem_append.mp hc with hmem | hmem
        · exact hdig c hmem
        · rw [List.mem_singleton.mp hmem]
          exact he1
      · unfold digitsVal
        rw [List.foldl_append]
        simp only [List.foldl_cons, List.foldl_nil]
        have hx : List.foldl (fun a c => a * 10 + (c.toNat - 48)) 0 (natDigitsAux f (n / 10)) =
            n / 10 := hval
        rw [hx]
        omega
      · intro _
        have hpos : 0 < n / 10 := Nat.div_pos (by omega) (by omega)
        obtain ⟨c, cs, hcons⟩ := List.exists_cons_of_ne_nil hne
        have h0 := hhead hpos
        rw [hcons] at h0
        rw [hcons]
        simpa using h0

/-- The decimal numeral printer is correct (wrapper for `natToChars`). -/
theorem natToChars_spec (n : Nat) :
    natToChars n ≠ [] ∧ (∀ c ∈ natToChars n, c.isDigit = true) ∧
      digitsVal (natToChars n) = n ∧ (0 < n → (natToChars n).headI ≠ '0') :=
  natDigitsAux_spec (n + 1) n (Nat.lt_succ_self n)

/-- A digit character is not one of the number-syntax punctuation marks. -/
theorem digit_not_special (c : Char) (h : c.isDigit = true) :
    c ≠ '-' ∧ c ≠ '+' ∧ c ≠ '.' ∧ c ≠ 'e' ∧ c ≠ 'E' := by
  refine ⟨?_, ?_, ?_, ?_, ?_⟩ <;> (intro he; subst he; revert h; decide)

/-- `span Char.isDigit` splits a digit run from a non-digit continuation. -/
theorem spanDigits_append (ds rest : List Char) (hds : ∀ c ∈ ds, c.isDigit = true)
    (hr : rest.headI.isDigit = false) :
    spanDigits (ds ++ rest) = (ds, rest) := by
  unfold spanDigits
  rw [List.span_eq_take_drop]
  have key : (ds ++ rest).takeWhile Char.isDigit = ds ∧
      (ds ++ rest).dropWhile Char.isDigit = rest := by
    induction ds with
    | nil =>
      simp only [List.nil_append]
      cases rest with
      | nil => exact ⟨rfl, rfl⟩
      | cons c rest' =>
        simp only [List.headI] at hr
        rw [List.takeWhile_cons, List.dropWhile_cons]
        simp [hr]
    | cons c ds' ih =>
      have hc : c.isDigit = true := hds c (List.mem_cons_self _ _)
      rw [List.cons_append, List.takeWhile_cons, List.dropWhile_cons]
      obtain ⟨h1, h2⟩ := ih (fun x hx => hds x (List.mem_cons_of_mem _ hx))
      simp [hc, h1, h2]
  rw [key.1, key.2]

/-- Head of a continuation allowed after a number is not a digit. -/
theorem numBreak_headI (rest : List Char) (hr : numBreak rest = true) :
    rest.headI.isDigit = false := by
  cases rest with
  | nil => decide
  | cons c cs =>
    simp only [numBreak, Bool.not_eq_true', Bool.or_eq_false_iff] at hr
    simpa using hr.1.1.1

/-- Re-parsing a printed exponent part recovers the exponent exactly. -/
theorem parseExpPart_print (e : Int) (rest : List Char) (hr : numBreak rest = true) :
    parseExpPart
      ((if e = 0 then []
        else 'e' :: ((if e < 0 then ['-'] else []) ++ natToChars e.natAbs)) ++ rest) =
      .ok (e, rest) := by
  obtain ⟨hne, hdig, hval, _⟩ := natToChars_spec e.natAbs
  by_cases he : e = 0
  · subst he
    rw [if_pos rfl, List.nil_append]
    cases rest with
    | nil => rfl
    | cons c cs =>
      simp only [numBreak, Bool.not_eq_true', Bool.or_eq_false_iff] at hr
      unfold parseExpPart
      dsimp only
      rw [if_neg (by
        simp only [Bool.or_eq_true, decide_eq_true_eq, not_or]
        exact ⟨by simpa using hr.1.2, by simpa using hr.2⟩)]
  · rw [if_neg he, List.cons_append]
    unfold parseExpPart
    dsimp only
    rw [if_pos (by decide)]
    have hspan : spanDigits (natToChars e.natAbs ++ rest) = (natToChars e.natAbs, rest) :=
      spanDigits_append _ _ hdig (numBreak_headI rest hr)
    by_cases hneg : e < 0
    · rw [if_pos hneg]
      simp only [List.append_assoc, List.cons_append, List.nil_append, if_true]
      rw [if_neg (show ¬('-' : Char) = '+' by decide)]
      simp only [hspan]
      rw [if_neg hne, hval]
      have harith : (-1 : Int) * (e.natAbs : Int) = e := by omega
      rw [harith]
    · rw [if_neg hneg]
      simp only [List.append_assoc, List.cons_append, List.nil_append]
      obtain ⟨d, D', hD⟩ := List.exists_cons_of_ne_nil hne
      have hddig : d.isDigit = true := hdig d (by rw [hD]; exact List.mem_cons_self _ _)
      obtain ⟨hdminus, hdplus, _, _, _⟩ := digit_not_special d hddig
      rw [hD] at hspan hval ⊢
      simp only [List.cons_append]
      rw [if_neg hdplus, if_neg hdminus]
      simp only [← List.cons_append, hspan]
      rw [if_neg (by rw [← hD]; exact hne), hval]
      have harith : (1 : Int) * (e.natAbs : Int) = e := by omega
      rw [harith]

/-- `digitsVal` of nothing. -/
theorem digitsVal_nil : digitsVal ([] : List Char) = 0 := rfl

/-- Re-parsing a printed number literal recovers the exact mantissa and
exponent, leaving the continuation untouched. -/
theorem parseNumber_print (m e : Int) (rest : List Char) (hr : numBreak rest = true) :
    parseNumber (printNum m e ++ rest) = .ok ((m, e), rest) := by
  obtain ⟨hAne, hAdig, hAval, hAhead⟩ := natToChars_spec m.natAbs
  have hEr : ((if e = 0 then []
      else 'e' :: ((if e < 0 then ['-'] else []) ++ natToChars e.natAbs)) ++ rest).headI.isDigit
      = false := by
    by_cases he : e = 0
    · rw [if_pos he, List.nil_append]
      exact numBreak_headI rest hr
    · rw [if_neg he, List.cons_append]
      rfl
  have hfr : ((if e = 0 then []
      else 'e' :: ((if e < 0 then ['-'] else []) ++ natToChars e.natAbs)) ++ rest).headI
      ≠ '.' := by
    by_cases he : e = 0
    · rw [if_pos he, List.nil_append]
      cases rest with
      | nil => decide
      | cons c cs =>
        simp only [numBreak, Bool.not_eq_true', Bool.or_eq_false_iff] at hr
        simpa using hr.1.1.2
    · rw [if_neg he, List.cons_append]
      simp
  have hspanA := spanDigits_append (natToChars m.natAbs)
    ((if e = 0 then []
      else 'e' :: ((if e < 0 then ['-'] else []) ++ natToChars e.natAbs)) ++ rest) hAdig hEr
  have hlz : ¬(1 < (natToChars m.natAbs).length ∧ (natToChars m.natAbs).headI = '0') := by
    rcases Nat.eq_zero_or_pos m.natAbs with hz | hp
    · rw [hz]
      intro hcon
      have hone : (natToChars 0).length = 1 := rfl
      omega
    · intro hcon
      exact hAhead hp hcon.2
  have hexp := parseExpPart_print e rest hr
  have hshape : printNum m e ++ rest = (if m < 0 then ['-'] else []) ++
      (natToChars m.natAbs ++
        ((if e = 0 then []
          else 'e' :: ((if e < 0 then ['-'] else []) ++ natToChars e.natAbs)) ++ rest)) := by
    unfold printNum
    simp [List.append_assoc]
  rw [hshape]
  revert hspanA hexp hfr
  generalize ((if e = 0 then []
      else 'e' :: ((if e < 0 then ['-'] else []) ++ natToChars e.natAbs)) ++ rest) = X
  intro hfr hspanA hexp
  have hneg_case : ∀ Z, spanDigits Z = (natToChars m.natAbs, X) →
      parseNumber ('-' :: Z) = .ok ((-((m.natAbs : Nat) : Int), e), rest) := by
    intro Z hZ
    unfold parseNumber
    dsimp only
    rw [if_pos rfl]
    simp only [hZ]
    rw [if_neg hAne, if_neg hlz]
    cases X with
    | nil =>
      dsimp only
      rw [hexp]
      simp only [digitsVal_nil, List.length_nil, pow_zero, Nat.mul_one, Nat.add_zero, hAval,
        Nat.cast_zero, Int.sub_zero]
      rfl
    | cons c0 cs0 =>
      simp only [List.headI] at hfr
      dsimp only
      rw [if_neg hfr]
      dsimp only
      rw [hexp]
      simp only [digitsVal_nil, List.length_nil, pow_zero, Nat.mul_one, Nat.add_zero, hAval,
        Nat.cast_zero, Int.sub_zero]
      rfl
  have hpos_case : parseNumber (natToChars m.natAbs ++ X) =
      .ok ((((m.natAbs : Nat) : Int), e), rest) := by
    obtain ⟨a, A', hA⟩ := List.exists_cons_of_ne_nil hAne
    have hadig : a.isDigit = true := hAdig a (by rw [hA]; exact List.mem_cons_self _ _)
    obtain ⟨haminus, _, _, _, _⟩ := digit_not_special a hadig
    have hcons : natToChars m.natAbs ++ X = a :: (A' ++ X) := by
      rw [hA]
      rfl
    rw [hcons]
    unfold parseNumber
    dsimp only
    rw [if_neg haminus, ← hcons]
    simp only [hspanA]
    rw [if_neg hAne, if_neg hlz]
    cases X with
    | nil =>
      dsimp only
      rw [hexp]
      simp only [digitsVal_nil, List.length_nil, pow_zero, Nat.mul_one, Nat.add_zero, hAval,
        Nat.cast_zero, Int.sub_zero]
      rfl
    | cons c0 cs0 =>
      simp only [List.headI] at hfr
      dsimp only
      rw [if_neg hfr]
      dsimp only
      rw [hexp]
      simp only [digitsVal_nil, List.length_nil, pow_zero, Nat.mul_one, Nat.add_zero, hAval,
        Nat.cast_zero, Int.sub_zero]
      rfl
  by_cases hm : m < 0
  · rw [if_pos hm]
    have h1 := hneg_case (natToChars m.natAbs ++ X) hspanA
    have h2 : (-((m.natAbs : Nat) : Int)) = m := by omega
    rw [h2] at h1
    simpa using h1
  · rw [if_neg hm, List.nil_append]
    have h2 : (((m.natAbs : Nat) : Int)) = m := by omega
    rw [h2] at hpos_case
    exact hpos_case

/-- Hexadecimal digits round-trip through `Nat.digitChar`. -/
theorem hexVal_digitChar (h : Nat) (hh : h < 16) : hexVal (Nat.digitChar h) = some h := by
  interval_cases h <;> rfl

/-- Consuming one escaped character pushes exactly its code. -/
theorem parseUnits_escChar (c : Char) (acc : List Nat) (tail : List Char) :
    parseUnits acc (escChar c ++ tail) = parseUnits (c.toNat :: acc) tail := by
  unfold escChar
  by_cases h1 : c = '"'
  · subst h1
    rw [if_pos rfl]
    conv_lhs => unfold parseUnits
    simp
  · rw [if_neg h1]
    by_cases h2 : c = '\\'
    · subst h2
      rw [if_pos rfl]
      conv_lhs => unfold parseUnits
      simp
    · rw [if_neg h2]
      by_cases h3 : c = '\x08'
      · subst h3
        rw [if_pos rfl]
        conv_lhs => unfold parseUnits
        simp
      · rw [if_neg h3]
        by_cases h4 : c = '\x0c'
        · subst h4
          rw [if_pos rfl]
          conv_lhs => unfold parseUnits
          simp
        · rw [if_neg h4]
          by_cases h5 : c = '\n'
          · subst h5
            rw [if_pos rfl]
            conv_lhs => unfold parseUnits
            simp
          · rw [if_neg h5]
            by_cases h6 : c = '\r'
            · subst h6
              rw [if_pos rfl]
              conv_lhs => unfold parseUnits
              simp
            · rw [if_neg h6]
              by_cases h7 : c = '\t'
              · subst h7
                rw [if_pos rfl]
                conv_lhs => unfold parseUnits
                simp
              · rw [if_neg h7]
                by_cases h8 : c.toNat < 32
                · rw [if_pos h8]
                  simp only [List.cons_append, List.nil_append]
                  have hhex : hex4 '0' '0' (Nat.digitChar (c.toNat / 16))
                      (Nat.digitChar (c.toNat % 16)) = some c.toNat := by
                    unfold hex4
                    rw [hexVal_digitChar _ (by omega : c.toNat / 16 < 16),
                      hexVal_digitChar _ (Nat.mod_lt _ (by omega)),
                      show hexVal '0' = some 0 from rfl]
                    dsimp only
                    congr 1
                    omega
                  conv_lhs => unfold parseUnits
                  rw [if_neg (by decide : ¬('\\' : Char) = '"'), if_pos rfl]
                  dsimp only
                  rw [if_pos rfl, hhex]
                · rw [if_neg h8]
                  show parseUnits acc (c :: tail) = parseUnits (c.toNat :: acc) tail
                  conv_lhs => unfold parseUnits
                  rw [if_neg h1, if_neg h2, if_neg h8]

/-- The escaped body of a string parses back to exactly its code units. -/
theorem parseUnits_escList (cs : List Char) :
    ∀ (acc : List Nat) (rest : List Char),
      parseUnits acc (escList cs ++ '"' :: rest) =
        .ok (acc.reverse ++ cs.map Char.toNat, rest) := by
  induction cs with
  | nil =>
    intro acc rest
    simp only [escList, List.nil_append, List.map_nil, List.append_nil]
    unfold parseUnits
    rw [if_pos rfl]
  | cons c cs ih =>
    intro acc rest
    simp only [escList, List.map_cons, List.append_assoc]
    rw [parseUnits_escChar, ih (c.toNat :: acc) rest]
    simp

/-- A character is never a UTF-16 surrogate code unit. -/
theorem char_not_surrogate (c : Char) : ¬(0xD800 ≤ c.toNat ∧ c.toNat ≤ 0xDBFF) := by
  have h := c.valid
  rcases h with h | ⟨h1, _⟩
  · simp only [Char.toNat]
    omega
  · simp only [Char.toNat]
    omega

/-- Pairing code units that came from real characters is the identity. -/
theorem unitsToChars_map (cs : List Char) : unitsToChars (cs.map Char.toNat) = cs := by
  induction cs with
  | nil => rfl
  | cons c cs ih =>
    cases cs with
    | nil =>
      simp only [List.map_cons, List.map_nil, unitsToChars]
      rw [Char.ofNat_toNat]
    | cons d ds =>
      rw [List.map_cons, List.map_cons, unitsToChars]
      rw [if_neg (by
        intro hcon
        exact char_not_surrogate c ⟨hcon.1, hcon.2.1⟩)]
      rw [← List.map_cons, ih, Char.ofNat_toNat]

/-- A printed string literal body re-parses to the original string. -/
theorem parseStr_print (s : String) (rest : List Char) :
    parseStr (escList s.data ++ '"' :: rest) = .ok (s, rest) := by
  unfold parseStr
  rw [parseUnits_escList s.data [] rest]
  simp only [List.reverse_nil, List.nil_append]
  rw [unitsToChars_map]

/-- The token-walk loop propagates `undefined`. -/
theorem walkTokens_none : ∀ ts : List PathToken, walkTokens none ts = none := by
  intro ts
  cases ts <;> rfl

/-- Fuel does not matter for a scanner step that never lengthens the
remainder, as long as it exceeds the input length. -/
theorem scanSt_irrel {σ : Type} (step : σ → Char → List Char → List Char × σ × List Char)
    (hstep : ∀ st c cs, (step st c cs).2.2.length ≤ cs.length) :
    ∀ (f1 f2 : Nat) (st : σ) (cs : List Char), cs.length < f1 → cs.length < f2 →
      scanSt step f1 st cs = scanSt step f2 st cs := by
  intro f1
  induction f1 with
  | zero =>
    intro f2 st cs h1 _
    exact absurd h1 (Nat.not_lt_zero _)
  | succ f1 ih =>
    intro f2 st cs h1 h2
    match cs with
    | [] =>
      cases f2 <;> rfl
    | c :: cs1 =>
      match f2, h2 with
      | f2 + 1, h2 =>
        show (match step st c cs1 with
              | (out, st2, rest) => out ++ scanSt step f1 st2 rest) =
          (match step st c cs1 with
           | (out, st2, rest) => out ++ scanSt step f2 st2 rest)
        have hlen := hstep st c cs1
        rcases hst : step st c cs1 with ⟨out, st2, rest⟩
        rw [hst] at hlen
        simp only
        congr 1
        have hr : rest.length ≤ cs1.length := hlen
        exact ih f2 st2 rest (by simp at h1; omega) (by simp at h2; omega)

/-- `matchQuoted` never lengthens the input. -/
theorem matchQuoted_length (q : Char) :
    ∀ (cs : List Char) (esc : Bool) (acc body rest : List Char),
      matchQuoted q esc acc cs = some (body, rest) → rest.length ≤ cs.length := by
  intro cs
  induction cs with
  | nil =>
    intro esc acc body rest h
    cases esc <;> simp [matchQuoted] at h
  | cons c cs1 ih =>
    intro esc acc body rest h
    cases esc with
    | true =>
      rw [matchQuoted] at h
      by_cases hnl : c = '\n'
      · rw [if_pos hnl] at h
        exact absurd h (by simp)
      · rw [if_neg hnl] at h
        have := ih false (c :: '\\' :: acc) body rest h
        simp only [List.length_cons]
        omega
    | false =>
      rw [matchQuoted] at h
      by_cases hq : c = q
      · rw [if_pos hq] at h
        injection h with h2
        injection h2 with _ h3
        simp [← h3]
      · rw [if_neg hq] at h
        by_cases hb : c = '\\'
        · rw [if_pos hb] at h
          have := ih true acc body rest h
          simp only [List.length_cons]
          omega
        · rw [if_neg hb] at h
          have := ih false (c :: acc) body rest h
          simp only [List.length_cons]
          omega

/-- `findBlockClose` never lengthens the input. -/
theorem findBlockClose_length :
    ∀ (cs rest : List Char), findBlockClose cs = some rest → rest.length ≤ cs.length := by
  intro cs
  induction cs with
  | nil =>
    intro rest h
    simp [findBlockClose] at h
  | cons c cs1 ih =>
    intro rest h
    match cs1, ih, h with
    | [], _, h => simp [findBlockClose] at h
    | d :: cs2, ih, h =>
      rw [findBlockClose] at h
      by_cases hs : c = '*' ∧ d = '/'
      · rw [if_pos hs] at h
        injection h with h2
        simp only [← h2, List.length_cons]
        omega
      · rw [if_neg hs] at h
        have := ih rest h
        simp only [List.length_cons] at *
        omega

/-- `dropWhile` never lengthens a list. -/
theorem length_dropWhile_le2 (p : Char → Bool) (l : List Char) :
    (l.dropWhile p).length ≤ l.length := by
  induction l with
  | nil => simp
  | cons c cs ih =>
    rw [List.dropWhile_cons]
    split
    · simp only [List.length_cons]
      omega
    · simp

/-- The line-comment step never lengthens the remainder. -/
theorem stepLC_length (st : Unit) (c : Char) (cs : List Char) :
    ((stepLC st c cs).2.2).length ≤ cs.length := by
  unfold stepLC
  by_cases hq : c = '"'
  · rw [if_pos hq]
    rcases hm : matchQuoted '"' false [] cs with _ | ⟨body, rest⟩
    · simp
    · simpa using matchQuoted_length '"' cs false [] body rest hm
  · rw [if_neg hq]
    by_cases hsl : c = '/'
    · rw [if_pos hsl]
      match cs with
      | [] => simp
      | d :: cs2 =>
        simp only
        by_cases hd : d = '/'
        · rw [if_pos hd]
          have := length_dropWhile_le2 (fun x => !(x = '\n')) cs2
          simp only [List.length_cons]
          omega
        · rw [if_neg hd]
    · rw [if_neg hsl]

/-- The block-comment step never lengthens the remainder. -/
theorem stepBC_length (st : Unit) (c : Char) (cs : List Char) :
    ((stepBC st c cs).2.2).length ≤ cs.length := by
  unfold stepBC
  by_cases hq : c = '"'
  · rw [if_pos hq]
    rcases hm : matchQuoted '"' false [] cs with _ | ⟨body, rest⟩
    · simp
    · simpa using matchQuoted_length '"' cs false [] body rest hm
  · rw [if_neg hq]
    by_cases hsl : c = '/'
    · rw [if_pos hsl]
      match cs with
      | [] => simp
      | d :: cs2 =>
        simp only
        by_cases hd : d = '*'
        · rw [if_pos hd]
          rcases hf : findBlockClose cs2 with _ | rest
          · simp
          · have := findBlockClose_length cs2 rest hf
            simp only [List.length_cons]
            omega
        · rw [if_neg hd]
    · rw [if_neg hsl]

/-- The token-replacement step never lengthens the remainder (for a
non-empty token). -/
theorem stepWord_length (tok rep : List Char) (htok : tok ≠ []) (st : Bool) (c : Char)
    (cs : List Char) : ((stepWord tok rep st c cs).2.2).length ≤ cs.length := by
  unfold stepWord
  split
  · have hpos : 0 < tok.length := List.length_pos.mpr htok
    simp only [List.length_drop, List.length_cons]
    omega
  · simp

/-- A well-formed double-quoted literal is matched in full, with the body
returned verbatim. -/
theorem matchQuoted_complete (body : List Char) (hb : WfBody body) :
    ∀ (acc rest : List Char),
      matchQuoted '"' false acc (body ++ '"' :: rest) = some (acc.reverse ++ body, rest) := by
  induction hb with
  | nil =>
    intro acc rest
    simp [matchQuoted]
  | chr c cs hq hbsl _ ih =>
    intro acc rest
    rw [List.cons_append, matchQuoted, if_neg hq, if_neg hbsl, ih (c :: acc) rest]
    simp
  | esc d cs hd _ ih =>
    intro acc rest
    rw [List.cons_append, List.cons_append, matchQuoted,
      if_neg (by decide : ¬('\\' = '"')), if_pos rfl, matchQuoted, if_neg hd,
      ih (d :: '\\' :: acc) rest]
    simp

/-- Pass 1 copies a double-quoted string literal verbatim and resumes the
scan after it. -/
theorem stripLineComments_string_literal (body rest : List Char) (hb : WfBody body) :
    stripLineComments ('"' :: (body ++ '"' :: rest)) =
      '"' :: (body ++ '"' :: stripLineComments rest) := by
  unfold stripLineComments
  show (match stepLC () '"' (body ++ '"' :: rest) with
        | (out, st2, rem) =>
          out ++ scanSt stepLC ((body ++ '"' :: rest).length + 1) st2 rem) =
    '"' :: (body ++ '"' :: scanSt stepLC (rest.length + 1) () rest)
  rw [show stepLC () '"' (body ++ '"' :: rest) =
      ('"' :: (body ++ ['"']), (), rest) by
    unfold stepLC
    rw [if_pos rfl, matchQuoted_complete body hb [] rest]
    rfl]
  simp only
  rw [scanSt_irrel stepLC stepLC_length ((body ++ '"' :: rest).length + 1) (rest.length + 1) ()
    rest (by simp only [List.length_append, List.length_cons]; omega) (by omega)]
  simp

/-- Pass 2 copies a double-quoted string literal verbatim and resumes the
scan after it. -/
theorem stripBlockComments_string_literal (body rest : List Char) (hb : WfBody body) :
    stripBlockComments ('"' :: (body ++ '"' :: rest)) =
      '"' :: (body ++ '"' :: stripBlockComments rest) := by
  unfold stripBlockComments
  show (match stepBC () '"' (body ++ '"' :: rest) with
        | (out, st2, rem) =>
          out ++ scanSt stepBC ((body ++ '"' :: rest).length + 1) st2 rem) =
    '"' :: (body ++ '"' :: scanSt stepBC (rest.length + 1) () rest)
  rw [show stepBC () '"' (body ++ '"' :: rest) =
      ('"' :: (body ++ ['"']), (), rest) by
    unfold stepBC
    rw [if_pos rfl, matchQuoted_complete body hb [] rest]
    rfl]
  simp only
  rw [scanSt_irrel stepBC stepBC_length ((body ++ '"' :: rest).length + 1) (rest.length + 1) ()
    rest (by simp only [List.length_append, List.length_cons]; omega) (by omega)]
  simp

/-- The token pass rewrites `True` even inside a double-quoted string
literal: the quote is just another non-word character to the `\b` check. -/
theorem replaceWord_inside_string (rest : List Char) :
    replaceWord "True" "true" ('"' :: 'T' :: 'r' :: 'u' :: 'e' :: '"' :: rest) =
      '"' :: 't' :: 'r' :: 'u' :: 'e' :: '"' :: replaceWord "True" "true" rest := by
  show '"' :: 't' :: 'r' :: 'u' :: 'e' :: '"' ::
      scanSt (stepWord "True".data "true".data) (rest.length + 4) true rest =
    '"' :: 't' :: 'r' :: 'u' :: 'e' :: '"' ::
      scanSt (stepWord "True".data "true".data) (rest.length + 1) true rest
  rw [scanSt_irrel (stepWord "True".data "true".data)
    (stepWord_length "True".data "true".data (by decide)) (rest.length + 4)
    (rest.length + 1) true rest (by omega) (by omega)]

/-- Counterexample to C2: on input `{"a": "True",}` — invalid JSON only
because of its trailing comma — the repair pipeline rewrites the contents
of the double-quoted string literal `"True"` to `"true"`: the bare-token
pass has no protection for string literals. -/
theorem repair_touches_strings_counterexample :
    (fixJson "\x7b\"a\": \"True\",\x7d").fixed = "\x7b\"a\": \"true\"\x7d" ∧
      (fixJson "\x7b\"a\": \"True\",\x7d").wasFixed = true :=
  ⟨rfl, rfl⟩

/-- C2 (amended): the comment-stripping passes (1 and 2) copy double-quoted
string literals verbatim, but the bare-token pass replaces `True` (and its
siblings) at word boundaries anywhere in the text — including inside
double-quoted string literals — and only at word boundaries (a token
flanked by word characters is left alone). -/
theorem repair_passes_and_string_literals (body rest : List Char) (hb : WfBody body) :
    stripLineComments ('"' :: (body ++ '"' :: rest)) =
      '"' :: (body ++ '"' :: stripLineComments rest) ∧
    stripBlockComments ('"' :: (body ++ '"' :: rest)) =
      '"' :: (body ++ '"' :: stripBlockComments rest) ∧
    replaceWord "True" "true" ('"' :: 'T' :: 'r' :: 'u' :: 'e' :: '"' :: rest) =
      '"' :: 't' :: 'r' :: 'u' :: 'e' :: '"' :: replaceWord "True" "true" rest ∧
    replaceLiterals "xTruex".data = "xTruex".data :=
  ⟨stripLineComments_string_literal body rest hb,
    stripBlockComments_string_literal body rest hb,
    replaceWord_inside_string rest, rfl⟩

/-- Witness for C2 (amended) at the concrete literal body `a,` and
remainder `//x`. -/
theorem repair_passes_and_string_literals_witness :
    stripLineComments ('"' :: ('a' :: ',' :: [] ++ '"' :: "//x".data)) =
      '"' :: ('a' :: ',' :: [] ++ '"' :: stripLineComments "//x".data) ∧
    stripLineComments "//x".data = [] := by
  have h := repair_passes_and_string_literals ('a' :: ',' :: []) "//x".data
    (.chr 'a' [','] (by decide) (by decide) (.chr ',' [] (by decide) (by decide) .nil))
  exact ⟨h.1, rfl⟩

/-- C1: for every input whose trimmed content is non-empty and which
already parses under strict JSON, `fixJson` returns the original string
verbatim as the fixed text, with `wasFixed = false` and no error — no
repair pass is applied to already-valid input. -/
theorem fixJson_valid_input_verbatim (raw : String) (v : JsonValue)
    (hne : jsTrim raw ≠ "") (hok : parseJson raw = .ok v) :
    fixJson raw = ⟨raw, false, none⟩ := by
  unfold fixJson
  rw [if_neg hne, hok]

/-- Witness for C1 at the concrete valid input `"[1, 2]"`. -/
theorem fixJson_valid_input_verbatim_witness :
    jsTrim "[1, 2]" ≠ "" ∧ parseJson "[1, 2]" = .ok (.arr [.num 1 0, .num 2 0]) ∧
      fixJson "[1, 2]" = ⟨"[1, 2]", false, none⟩ :=
  ⟨by decide, rfl, fixJson_valid_input_verbatim "[1, 2]" (.arr [.num 1 0, .num 2 0]) (by decide) rfl⟩

/-- C3: for every non-empty input that fails strict parse both as given and
after all repair passes, `fixJson` returns the original input as the fixed
text, `wasFixed = false`, and the error message from parsing the ORIGINAL
raw text (never the failure of the repaired text). -/
theorem fixJson_failure_reports_original_error (raw m m2 : String)
    (hne : jsTrim raw ≠ "") (horig : parseJson raw = .error m)
    (hrep : parseJson (applyRepairPasses raw) = .error m2) :
    fixJson raw = ⟨raw, false, some m⟩ := by
  unfold fixJson
  rw [if_neg hne, horig]
  simp only [hrep]

/-- Witness for C3 at the spec's example input `"not json at all"`. -/
theorem fixJson_failure_reports_original_error_witness :
    jsTrim "not json at all" ≠ "" ∧
      parseJson "not json at all" = .error "Unexpected token" ∧
      parseJson (applyRepairPasses "not json at all") = .error "Unexpected token" ∧
      fixJson "not json at all" = ⟨"not json at all", false, some "Unexpected token"⟩ :=
  ⟨by decide, rfl, rfl,
    fixJson_failure_reports_original_error "not json at all" "Unexpected token"
      "Unexpected token" (by decide) rfl rfl⟩

/-- Counterexample to C5: the claim says a `[n]` token applied to a
non-array yields `None`, but `current[parseInt(n)]` on a JS object looks up
the stringified index as a key: `$[0]` on `{"0": 7}` yields `7`. -/
theorem evaluatePath_counterexample :
    evaluatePath (.obj [("0", .num 7 0)]) "$[0]" = some (.num 7 0) ∧
      evaluatePath (.obj [("0", .num 7 0)]) "$[0]" ≠ none := by
  refine ⟨rfl, fun h => ?_⟩
  rw [show evaluatePath (.obj [("0", .num 7 0)]) "$[0]" = some (.num 7 0) from rfl] at h
  exact Option.noConfusion h

/-- C5 (amended): the walk yields `None` when a token indexes or keys a
null, boolean or number, or uses an out-of-range array index; an `[n]`
token on an object instead looks up the key `String(n)`; a path that is
empty after stripping the leading `$` or `$.` returns the root unchanged. -/
theorem evaluatePath_token_walk (root : JsonValue) (path : String) (b : Bool)
    (m e : Int) (xs : List JsonValue) (kvs : List (String × JsonValue))
    (i : Nat) (t : PathToken) (ts : List PathToken) :
    (stripDollar path.data = [] → evaluatePath root path = some root) ∧
    walkTokens (some (.bool b)) (t :: ts) = none ∧
    walkTokens (some (.num m e)) (t :: ts) = none ∧
    walkTokens (some .null) (t :: ts) = none ∧
    (xs.length ≤ i → walkTokens (some (.arr xs)) (.index i :: ts) = none) ∧
    walkTokens (some (.obj kvs)) (.index i :: ts) = walkTokens (lookupField kvs (natStr i)) ts := by
  refine ⟨?_, ?_, ?_, ?_, ?_, rfl⟩
  · intro hempty
    unfold evaluatePath
    rw [hempty]
    rfl
  · cases t <;> exact walkTokens_none ts
  · cases t <;> exact walkTokens_none ts
  · rfl
  · intro hlen
    show walkTokens (xs.get? i) ts = none
    rw [List.get?_eq_none.mpr hlen]
    exact walkTokens_none ts

/-- Witness for C5 (amended) at concrete inputs. -/
theorem evaluatePath_token_walk_witness :
    evaluatePath (.num 5 0) "$" = some (.num 5 0) ∧
      walkTokens (some (.bool true)) [.plain "x"] = none ∧
      walkTokens (some (.arr [.num 1 0])) [.index 3] = none := by
  have h := evaluatePath_token_walk (.num 5 0) "$" true 1 0 [.num 1 0] [] 3
    (.plain "x") []
  exact ⟨h.1 (by decide), h.2.1, h.2.2.2.2.1 (by decide)⟩

/-- Counterexample to C6: a node with value `null` and a non-matching key
does not match the term `"null"` in the code (`value !== null && typeof
value !== 'object'` excludes null from the value check), while the claim's
predicate — key contains term, or the value is primitive *or null* and its
string representation contains the term — says it matches. -/
theorem matchesSearch_null_counterexample :
    matchesSearch (some "a") .null "null" = false ∧
      specMatchesSearch (some "a") .null "null" = true :=
  ⟨rfl, rfl⟩

/-- C6 (amended): `matchesSearch` holds iff the term is empty, or the key
name contains the term case-insensitively, or the value is primitive and
**not null** and its string representation contains the term
case-insensitively. -/
theorem matchesSearch_characterization (keyName : Option String) (value : JsonValue)
    (term : String) :
    matchesSearch keyName value term =
      ((term == "") ||
        (match keyName with
         | some k => jsIncludes (jsLower k) term
         | none => false) ||
        (match value with
         | .null => false
         | .arr _ => false
         | .obj _ => false
         | v => jsIncludes (jsLower (jsToString v)) term)) := by
  unfold matchesSearch
  by_cases hterm : term = ""
  · simp [hterm]
  · rw [if_neg hterm]
    have hterm2 : (term == "") = false := by
      simpa using hterm
    rw [hterm2]
    by_cases hkey : (match keyName with
        | some k => jsIncludes (jsLower k) term
        | none => false) = true
    · rw [if_pos hkey, hkey]
      rfl
    · rw [if_neg hkey, Bool.not_eq_true] at *
      rw [hkey]
      rfl

/-- Counterexample to C7: in JsonOutput's `JsonItem` (one of the two cited
tree implementations) the initial collapse state is `useState(false)`, so a
container at depth 4 defaults to expanded even though its depth exceeds 3. -/
theorem default_collapse_counterexample :
    JsonItem.initialCollapsedAt 4 = false ∧ 4 > 3 := by
  exact ⟨rfl, by decide⟩

/-- C7 (amended): JsonTreeView's `JsonNode` defaults to collapsed exactly
when the node's depth (root = 0) exceeds 3; JsonOutput's `JsonItem`
defaults every node to expanded regardless of depth. -/
theorem default_collapse_policy (depth : Nat) :
    JsonNode.initialCollapsed depth = decide (depth > 3) ∧
      JsonItem.initialCollapsedAt depth = false :=
  ⟨rfl, rfl⟩

/-- C8: the undo stack never exceeds 50 entries; a push of a (non-empty)
prior text prepends it and truncates to the 50 most recent; undo removes
and restores the newest entry; and after 51 pushes the first-pushed text is
gone while undo restores the 51st (the 50th-from-original). -/
theorem undo_stack_capacity (cur prev : String) (stack rest : List String) :
    (stack.length ≤ 50 → (pushUndo cur stack).length ≤ 50) ∧
    (cur ≠ "" → pushUndo cur stack = (cur :: stack).take 50) ∧
    (∀ s : AppState, s.undoStack = prev :: rest →
      (handleUndo s).value = prev ∧ (handleUndo s).undoStack = rest) ∧
    ((List.range 51).foldl (fun st i => pushUndo ("t" ++ natStr (i + 1)) st) [] =
        ((List.range 50).map (fun i => "t" ++ natStr (51 - i))) ∧
      "t" ++ natStr 1 ∉
        (List.range 51).foldl (fun st i => pushUndo ("t" ++ natStr (i + 1)) st) [] ∧
      ((List.range 51).foldl (fun st i => pushUndo ("t" ++ natStr (i + 1)) st) []).headI =
        "t" ++ natStr 51) := by
  refine ⟨?_, ?_, ?_, by decide, by decide, by decide⟩
  · intro hlen
    unfold pushUndo
    split
    · exact hlen
    · simp [List.length_take]
  · intro hne
    unfold pushUndo
    rw [if_neg hne]
  · intro s hs
    unfold handleUndo
    rw [hs]
    exact ⟨rfl, rfl⟩

/-- Witness for C8 at concrete inputs. -/
theorem undo_stack_capacity_witness :
    (pushUndo "x" ["a"]).length ≤ 50 ∧
      pushUndo "x" ["a"] = ["x", "a"] ∧
      (handleUndo ⟨"v", "", "", .edit, none, ["p", "q"], ""⟩).value = "p" := by
  have h := undo_stack_capacity "x" "p" ["a"] ["q"]
  refine ⟨h.1 (by decide), ?_, (h.2.2.1 ⟨"v", "", "", .edit, none, ["p", "q"], ""⟩ rfl).1⟩
  rw [h.2.1 (by decide)]
  rfl

/-- C9 (implicit): whenever `fixJson` reports an error for the current
text, Format and Minify leave the document text, the undo stack, the view
mode, the formatted snapshot, and the active snippet unchanged (no undo
entry is pushed) — only the displayed error message is written. -/
theorem format_minify_error_atomic (s : AppState) (n : Nat)
    (h : (fixJson (jsTrim s.value)).error.isSome) :
    ((handleFormat s n).value = s.value ∧ (handleFormat s n).undoStack = s.undoStack ∧
      (handleFormat s n).viewMode = s.viewMode ∧
      (handleFormat s n).formattedVal = s.formattedVal ∧
      (handleFormat s n).activeId = s.activeId ∧ (handleFormat s n).toast = s.toast) ∧
    ((handleMinify s).value = s.value ∧ (handleMinify s).undoStack = s.undoStack ∧
      (handleMinify s).viewMode = s.viewMode ∧
      (handleMinify s).formattedVal = s.formattedVal ∧
      (handleMinify s).activeId = s.activeId ∧ (handleMinify s).toast = s.toast) := by
  obtain ⟨msg, hmsg⟩ := Option.isSome_iff_exists.mp h
  constructor
  · unfold handleFormat
    by_cases hraw : jsTrim s.value = ""
    · rw [if_pos hraw]
      exact ⟨rfl, rfl, rfl, rfl, rfl, rfl⟩
    · rw [if_neg hraw]
      simp only [hmsg]
      exact ⟨trivial, trivial, trivial, trivial, trivial, trivial⟩
  · unfold handleMinify
    by_cases hraw : jsTrim s.value = ""
    · rw [if_pos hraw]
      exact ⟨rfl, rfl, rfl, rfl, rfl, rfl⟩
    · rw [if_neg hraw]
      simp only [hmsg]
      exact ⟨trivial, trivial, trivial, trivial, trivial, trivial⟩

/-- Witness for C9 at the invalid document text `"not json at all"`. -/
theorem format_minify_error_atomic_witness :
    (fixJson (jsTrim "not json at all")).error.isSome ∧
      (handleFormat ⟨"not json at all", "f", "", .tree, some 3, ["u"], "t"⟩ 2).value =
        "not json at all" ∧
      (handleFormat ⟨"not json at all", "f", "", .tree, some 3, ["u"], "t"⟩ 2).undoStack =
        ["u"] := by
  have h := format_minify_error_atomic ⟨"not json at all", "f", "", .tree, some 3, ["u"], "t"⟩ 2
    (by decide)
  exact ⟨by decide, h.1.1, h.1.2.1⟩

/-- C10 (implicit): undo pops the newest stack entry, restores it as the
document text, forces the view back to raw-edit, clears the error message
and the active snippet identity (and shows the undo toast); every other
session field (`formattedVal`) is carried over unchanged. -/
theorem handleUndo_pops_and_resets (s : AppState) (prev : String) (rest : List String)
    (h : s.undoStack = prev :: rest) :
    handleUndo s = { s with undoStack := rest, value := prev, error := "",
                            viewMode := .edit, activeId := none, toast := "Undone" } := by
  unfold handleUndo
  rw [h]

/-- Witness for C10 at a concrete state. -/
theorem handleUndo_pops_and_resets_witness :
    handleUndo ⟨"v", "fv", "err", .tree, some 9, ["p", "q"], "old"⟩ =
      ⟨"p", "fv", "", .edit, none, ["q"], "Undone"⟩ :=
  handleUndo_pops_and_resets ⟨"v", "fv", "err", .tree, some 9, ["p", "q"], "old"⟩ "p" ["q"] rfl

/-! ### Parse/print round-trip for whole values (C4) -/

/-- A non-whitespace head stops `skipWs`. -/
theorem skipWs_cons_neg (c : Char) (cs : List Char) (h : isJsonWs c = false) :
    skipWs (c :: cs) = c :: cs := by
  show (c :: cs).dropWhile isJsonWs = c :: cs
  rw [List.dropWhile_cons, if_neg (by simp [h])]

/-- Every JSON value counts at least one node. -/
theorem sizeV_pos (v : JsonValue) : 1 ≤ sizeV v := by
  cases v <;> simp only [sizeV] <;> omega

/-- Leading whitespace does not affect a value parse (at positive fuel). -/
theorem parseValue_skipWs (n : Nat) (ws cs : List Char) (h : wsOnly ws = true) :
    parseValue (n + 1) (ws ++ cs) = parseValue (n + 1) cs := by
  conv_lhs => unfold parseValue
  conv_rhs => unfold parseValue
  rw [skipWs_append ws cs h]

/-- A digit character is neither whitespace nor a structural character. -/
theorem digit_not_structural (c : Char) (h : c.isDigit = true) :
    isJsonWs c = false ∧ c ≠ '\x7b' ∧ c ≠ '[' ∧ c ≠ '"' ∧ c ≠ 't' ∧ c ≠ 'f' ∧ c ≠ 'n' ∧
      c ≠ ']' ∧ c ≠ '\x7d' := by
  refine ⟨?_, ?_, ?_, ?_, ?_, ?_, ?_, ?_, ?_⟩
  · by_contra hw
    rw [Bool.not_eq_false] at hw
    simp only [isJsonWs, Bool.or_eq_true, decide_eq_true_eq] at hw
    rcases hw with ((h1 | h1) | h1) | h1 <;> (subst h1; revert h; decide)
  all_goals (intro he; subst he; revert h; decide)

/-- A printed number starts with a minus sign or a digit. -/
theorem printNum_head (m e : Int) :
    ∃ c T, printNum m e = c :: T ∧ (c = '-' ∨ c.isDigit = true) := by
  obtain ⟨hAne, hAdig, -, -⟩ := natToChars_spec m.natAbs
  obtain ⟨a, A, hA⟩ := List.exists_cons_of_ne_nil hAne
  unfold printNum
  by_cases hm : m < 0
  · rw [if_pos hm]
    exact ⟨'-', _, rfl, Or.inl rfl⟩
  · rw [if_neg hm, hA]
    exact ⟨a, _, rfl, Or.inr (hAdig a (by rw [hA]; exact List.mem_cons_self a A))⟩

/-- A printed value starts with a non-whitespace character that is not a
closing bracket or brace. -/
theorem printVal_head (g ind : Nat) (v : JsonValue) :
    ∃ c T, printVal g ind v = c :: T ∧ isJsonWs c = false ∧ c ≠ ']' ∧ c ≠ '\x7d' := by
  cases v with
  | null => exact ⟨'n', _, rfl, by decide, by decide, by decide⟩
  | bool b =>
    cases b with
    | false => exact ⟨'f', _, rfl, by decide, by decide, by decide⟩
    | true => exact ⟨'t', _, rfl, by decide, by decide, by decide⟩
  | num m e =>
    obtain ⟨c, T, hc, hd⟩ := printNum_head m e
    refine ⟨c, T, hc, ?_, ?_, ?_⟩
    · rcases hd with h | h
      · subst h; decide
      · exact (digit_not_structural c h).1
    · rcases hd with h | h
      · subst h; decide
      · exact (digit_not_structural c h).2.2.2.2.2.2.2.1
    · rcases hd with h | h
      · subst h; decide
      · exact (digit_not_structural c h).2.2.2.2.2.2.2.2
  | str s => exact ⟨'"', _, rfl, by decide, by decide, by decide⟩
  | arr xs =>
    cases xs with
    | nil => exact ⟨'[', _, rfl, by decide, by decide, by decide⟩
    | cons x xs => exact ⟨'[', _, rfl, by decide, by decide, by decide⟩
  | obj fs =>
    cases fs with
    | nil => exact ⟨'\x7b', _, rfl, by decide, by decide, by decide⟩
    | cons f fs => exact ⟨'\x7b', _, rfl, by decide, by decide, by decide⟩

/-- The pretty-mode space after a colon is whitespace. -/
theorem wsOnly_sp (g : Nat) : wsOnly (if g = 0 then [] else [' ']) = true := by
  split <;> rfl

/-- A gap followed by a non-number character cannot extend a number. -/
theorem numBreak_close (g ind : Nat) (c : Char) (r : List Char)
    (hc : (!(c.isDigit || c = '.' || c = 'e' || c = 'E')) = true) :
    numBreak (nlPad g ind ++ c :: r) = true := by
  unfold nlPad
  split
  · exact hc
  · rfl

/-- Re-parsing a printed string literal recovers the string. -/
theorem parseValue_strLit (n : Nat) (s : String) (rest : List Char) :
    parseValue (n + 1) (printStr s ++ rest) = .ok (.str s, rest) := by
  have hshape : printStr s ++ rest = '"' :: (escList s.data ++ ('"' :: rest)) := by
    simp [printStr, List.append_assoc]
  have hred : parseValue (n + 1) ('"' :: (escList s.data ++ ('"' :: rest))) =
      match parseStr (escList s.data ++ ('"' :: rest)) with
      | .ok (s2, r2) => .ok (.str s2, r2)
      | .error e => .error e := rfl
  rw [hshape, hred, parseStr_print s rest]

/-- Re-parsing a printed number literal recovers the number node. -/
theorem parseValue_numLit (n : Nat) (m e : Int) (rest : List Char)
    (hbr : numBreak rest = true) :
    parseValue (n + 1) (printNum m e ++ rest) = .ok (.num m e, rest) := by
  obtain ⟨c, T, hc, hd⟩ := printNum_head m e
  have hfacts : isJsonWs c = false ∧ c ≠ '\x7b' ∧ c ≠ '[' ∧ c ≠ '"' ∧ c ≠ 't' ∧ c ≠ 'f' ∧
      c ≠ 'n' := by
    rcases hd with h | h
    · subst h
      exact ⟨by decide, by decide, by decide, by decide, by decide, by decide, by decide⟩
    · obtain ⟨h0, h1, h2, h3, h4, h5, h6, -, -⟩ := digit_not_structural c h
      exact ⟨h0, h1, h2, h3, h4, h5, h6⟩
  rw [hc, List.cons_append]
  conv_lhs => unfold parseValue
  rw [skipWs_cons_neg c (T ++ rest) hfacts.1]
  dsimp only
  rw [if_neg hfacts.2.1, if_neg hfacts.2.2.1, if_neg hfacts.2.2.2.1, if_neg hfacts.2.2.2.2.1,
    if_neg hfacts.2.2.2.2.2.1, if_neg hfacts.2.2.2.2.2.2, if_pos hd]
  rw [← List.cons_append, ← hc, parseNumber_print m e rest hbr]

/-- Simultaneous statement of the parse/print round-trip: at sufficient fuel,
re-parsing a printed value (resp. a printed non-empty item or field list with
its closing delimiter) recovers it exactly and leaves the continuation. -/
theorem parse_print_rt (g : Nat) : ∀ n : Nat,
    (∀ (v : JsonValue) (ind : Nat) (ws rest : List Char), sizeV v ≤ n → wsOnly ws = true →
      numBreak rest = true → parseValue n (ws ++ (printVal g ind v ++ rest)) = .ok (v, rest)) ∧
    (∀ (xs : List JsonValue) (ind : Nat) (rest : List Char), xs ≠ [] → sizeItems xs ≤ n →
      numBreak rest = true →
      parseItems n (nlPad g (ind + g) ++ (printItemsP g ind xs ++ (nlPad g ind ++ (']' :: rest))))
        = .ok (xs, rest)) ∧
    (∀ (fs : List (String × JsonValue)) (ind : Nat) (rest : List Char), fs ≠ [] →
      sizeFields fs ≤ n → numBreak rest = true →
      parseFields n
          (nlPad g (ind + g) ++ (printFieldsP g ind fs ++ (nlPad g ind ++ ('\x7d' :: rest))))
        = .ok (fs, rest)) := by
  intro n
  induction n with
  | zero =>
    refine ⟨?_, ?_, ?_⟩
    · intro v ind ws rest hsz _ _
      exact absurd hsz (by have := sizeV_pos v; omega)
    · intro xs ind rest hne hsz _
      cases xs with
      | nil => exact absurd rfl hne
      | cons x xs => exact absurd hsz (by simp only [sizeItems]; omega)
    · intro fs ind rest hne hsz _
      cases fs with
      | nil => exact absurd rfl hne
      | cons f fs => exact absurd hsz (by simp only [sizeFields]; omega)
  | succ n ih =>
    obtain ⟨ihV, ihI, ihF⟩ := ih
    refine ⟨?_, ?_, ?_⟩
    · intro v ind ws rest hsz hws hbr
      rw [parseValue_skipWs n ws (printVal g ind v ++ rest) hws]
      cases v with
      | null => rfl
      | bool b => cases b <;> rfl
      | num m e => exact parseValue_numLit n m e rest hbr
      | str s => exact parseValue_strLit n s rest
      | arr xs =>
        cases xs with
        | nil => rfl
        | cons x xs =>
          obtain ⟨c, T, hcT, hw, hne1, hne2⟩ := printVal_head g (ind + g) x
          have hU : ∃ U, printItemsP g ind (x :: xs) ++ (nlPad g ind ++ (']' :: rest))
              = c :: U := by
            cases xs with
            | nil => exact ⟨T ++ (nlPad g ind ++ (']' :: rest)), by simp [printItemsP, hcT]⟩
            | cons y ys =>
              exact ⟨T ++ (',' :: (nlPad g (ind + g) ++ (printItemsP g ind (y :: ys) ++
                (nlPad g ind ++ (']' :: rest))))),
                by simp [printItemsP, hcT, List.append_assoc]⟩
          obtain ⟨U, hU⟩ := hU
          have hsh : printVal g ind (.arr (x :: xs)) ++ rest =
              '[' :: (nlPad g (ind + g) ++ (printItemsP g ind (x :: xs) ++
                (nlPad g ind ++ (']' :: rest)))) := by
            simp [printVal, List.append_assoc]
          rw [hsh]
          conv_lhs => unfold parseValue
          rw [skipWs_cons_neg _ _ (by decide)]
          dsimp only
          rw [if_neg (by decide : ¬('[' : Char) = '\x7b'), if_pos rfl]
          rw [show skipWs (nlPad g (ind + g) ++ (printItemsP g ind (x :: xs) ++
              (nlPad g ind ++ (']' :: rest)))) = c :: U from by
            rw [skipWs_append _ _ (wsOnly_nlPad g (ind + g)), hU, skipWs_cons_neg c U hw]]
          dsimp only
          rw [if_neg hne1]
          rw [ihI (x :: xs) ind rest (by simp) (by simp only [sizeV] at hsz; omega) hbr]
      | obj fs =>
        cases fs with
        | nil => rfl
        | cons f fs =>
          have hU : ∃ U, printFieldsP g ind (f :: fs) ++ (nlPad g ind ++ ('\x7d' :: rest))
              = '"' :: U := by
            obtain ⟨k, v⟩ := f
            cases fs with
            | nil =>
              exact ⟨escList k.data ++ ('"' :: (kvSep g ++ (printVal g (ind + g) v ++
                (nlPad g ind ++ ('\x7d' :: rest))))),
                by simp [printFieldsP, printStr, List.append_assoc]⟩
            | cons f2 fs2 =>
              exact ⟨escList k.data ++ ('"' :: (kvSep g ++ (printVal g (ind + g) v ++
                (',' :: (nlPad g (ind + g) ++ (printFieldsP g ind (f2 :: fs2) ++
                  (nlPad g ind ++ ('\x7d' :: rest)))))))),
                by simp [printFieldsP, printStr, List.append_assoc]⟩
          obtain ⟨U, hU⟩ := hU
          have hsh : printVal g ind (.obj (f :: fs)) ++ rest =
              '\x7b' :: (nlPad g (ind + g) ++ (printFieldsP g ind (f :: fs) ++
                (nlPad g ind ++ ('\x7d' :: rest)))) := by
            simp [printVal, List.append_assoc]
          rw [hsh]
          conv_lhs => unfold parseValue
          rw [skipWs_cons_neg _ _ (by decide)]
          dsimp only
          rw [if_pos rfl]
          rw [show skipWs (nlPad g (ind + g) ++ (printFieldsP g ind (f :: fs) ++
              (nlPad g ind ++ ('\x7d' :: rest)))) = '"' :: U from by
            rw [skipWs_append _ _ (wsOnly_nlPad g (ind + g)), hU,
              skipWs_cons_neg _ _ (by decide)]]
          dsimp only
          rw [if_neg (by decide : ¬('"' : Char) = '\x7d')]
          rw [ihF (f :: fs) ind rest (by simp) (by simp only [sizeV] at hsz; omega) hbr]
    · intro xs ind rest hne hsz hbr
      cases xs with
      | nil => exact absurd rfl hne
      | cons x xs =>
        conv_lhs => unfold parseItems
        cases xs with
        | nil =>
          rw [show printItemsP g ind [x] = printVal g (ind + g) x from by simp [printItemsP]]
          rw [ihV x (ind + g) (nlPad g (ind + g)) (nlPad g ind ++ (']' :: rest))
            (by simp only [sizeItems] at hsz; omega) (wsOnly_nlPad g (ind + g))
            (numBreak_close g ind ']' rest (by decide))]
          dsimp only
          rw [show skipWs (nlPad g ind ++ (']' :: rest)) = ']' :: rest from by
            rw [skipWs_append _ _ (wsOnly_nlPad g ind), skipWs_cons_neg _ _ (by decide)]]
          dsimp only
          rw [if_neg (by decide : ¬(']' : Char) = ','), if_pos rfl]
        | cons y ys =>
          rw [show printItemsP g ind (x :: y :: ys) ++ (nlPad g ind ++ (']' :: rest)) =
              printVal g (ind + g) x ++ (',' :: (nlPad g (ind + g) ++
                (printItemsP g ind (y :: ys) ++ (nlPad g ind ++ (']' :: rest))))) from by
            simp [printItemsP, List.append_assoc]]
          rw [ihV x (ind + g) (nlPad g (ind + g)) (',' :: (nlPad g (ind + g) ++
              (printItemsP g ind (y :: ys) ++ (nlPad g ind ++ (']' :: rest)))))
            (by simp only [sizeItems] at hsz; omega) (wsOnly_nlPad g (ind + g)) rfl]
          dsimp only
          rw [skipWs_cons_neg _ _ (by decide)]
          dsimp only
          rw [if_pos rfl]
          rw [ihI (y :: ys) ind rest (by simp) (by simp only [sizeItems] at hsz ⊢; omega) hbr]
    · intro fs ind rest hne hsz hbr
      cases fs with
      | nil => exact absurd rfl hne
      | cons f fs =>
        obtain ⟨k, v⟩ := f
        conv_lhs => unfold parseFields
        cases fs with
        | nil =>
          rw [show printFieldsP g ind [(k, v)] ++ (nlPad g ind ++ ('\x7d' :: rest)) =
              '"' :: (escList k.data ++ ('"' :: (':' :: ((if g = 0 then [] else [' ']) ++
                (printVal g (ind + g) v ++ (nlPad g ind ++ ('\x7d' :: rest))))))) from by
            simp [printFieldsP, printStr, kvSep, List.append_assoc]]
          rw [show skipWs (nlPad g (ind + g) ++ ('"' :: (escList k.data ++ ('"' :: (':' ::
              ((if g = 0 then [] else [' ']) ++ (printVal g (ind + g) v ++
                (nlPad g ind ++ ('\x7d' :: rest))))))))) = '"' :: (escList k.data ++ ('"' ::
              (':' :: ((if g = 0 then [] else [' ']) ++ (printVal g (ind + g) v ++
                (nlPad g ind ++ ('\x7d' :: rest))))))) from by
            rw [skipWs_append _ _ (wsOnly_nlPad g (ind + g)), skipWs_cons_neg _ _ (by decide)]]
          dsimp only
          rw [if_pos rfl, parseStr_print k _]
          dsimp only
          rw [skipWs_cons_neg _ _ (by decide)]
          dsimp only
          rw [if_pos rfl]
          rw [ihV v (ind + g) (if g = 0 then [] else [' ']) (nlPad g ind ++ ('\x7d' :: rest))
            (by simp only [sizeFields] at hsz; omega) (wsOnly_sp g)
            (numBreak_close g ind '\x7d' rest (by decide))]
          dsimp only
          rw [show skipWs (nlPad g ind ++ ('\x7d' :: rest)) = '\x7d' :: rest from by
            rw [skipWs_append _ _ (wsOnly_nlPad g ind), skipWs_cons_neg _ _ (by decide)]]
          dsimp only
          rw [if_neg (by decide : ¬('\x7d' : Char) = ','), if_pos rfl]
        | cons f2 fs2 =>
          rw [show printFieldsP g ind ((k, v) :: f2 :: fs2) ++ (nlPad g ind ++ ('\x7d' :: rest))
              = '"' :: (escList k.data ++ ('"' :: (':' :: ((if g = 0 then [] else [' ']) ++
                (printVal g (ind + g) v ++ (',' :: (nlPad g (ind + g) ++
                  (printFieldsP g ind (f2 :: fs2) ++ (nlPad g ind ++ ('\x7d' :: rest))))))))))
              from by simp [printFieldsP, printStr, kvSep, List.append_assoc]]
          rw [show skipWs (nlPad g (ind + g) ++ ('"' :: (escList k.data ++ ('"' :: (':' ::
              ((if g = 0 then [] else [' ']) ++ (printVal g (ind + g) v ++ (',' ::
                (nlPad g (ind + g) ++ (printFieldsP g ind (f2 :: fs2) ++
                  (nlPad g ind ++ ('\x7d' :: rest)))))))))))) = '"' :: (escList k.data ++
              ('"' :: (':' :: ((if g = 0 then [] else [' ']) ++ (printVal g (ind + g) v ++
                (',' :: (nlPad g (ind + g) ++ (printFieldsP g ind (f2 :: fs2) ++
                  (nlPad g ind ++ ('\x7d' :: rest)))))))))) from by
            rw [skipWs_append _ _ (wsOnly_nlPad g (ind + g)), skipWs_cons_neg _ _ (by decide)]]
          dsimp only
          rw [if_pos rfl, parseStr_print k _]
          dsimp only
          rw [skipWs_cons_neg _ _ (by decide)]
          dsimp only
          rw [if_pos rfl]
          rw [ihV v (ind + g) (if g = 0 then [] else [' ']) (',' :: (nlPad g (ind + g) ++
              (printFieldsP g ind (f2 :: fs2) ++ (nlPad g ind ++ ('\x7d' :: rest)))))
            (by simp only [sizeFields] at hsz; omega) (wsOnly_sp g) rfl]
          dsimp only
          rw [skipWs_cons_neg _ _ (by decide)]
          dsimp only
          rw [if_pos rfl]
          rw [ihF (f2 :: fs2) ind rest (by simp)
            (by simp only [sizeFields] at hsz ⊢; omega) hbr]

/-- The node count of a value is bounded by its printed length (plus one for
the bare element and field lists), so parser fuel `length + 1` suffices. -/
theorem size_le_print (g : Nat) : ∀ N : Nat,
    (∀ (v : JsonValue) (ind : Nat), sizeV v ≤ N → sizeV v ≤ (printVal g ind v).length) ∧
    (∀ (xs : List JsonValue) (ind : Nat), sizeItems xs ≤ N →
      sizeItems xs ≤ 1 + (printItemsP g ind xs).length) ∧
    (∀ (fs : List (String × JsonValue)) (ind : Nat), sizeFields fs ≤ N →
      sizeFields fs ≤ 1 + (printFieldsP g ind fs).length) := by
  intro N
  induction N with
  | zero =>
    refine ⟨?_, ?_, ?_⟩
    · intro v ind hsz
      exact absurd hsz (by have := sizeV_pos v; omega)
    · intro xs ind hsz
      cases xs with
      | nil => simp [sizeItems]
      | cons x xs => exact absurd hsz (by simp only [sizeItems]; omega)
    · intro fs ind hsz
      cases fs with
      | nil => simp [sizeFields]
      | cons f fs => exact absurd hsz (by simp only [sizeFields]; omega)
  | succ N ih =>
    obtain ⟨ihV, ihI, ihF⟩ := ih
    refine ⟨?_, ?_, ?_⟩
    · intro v ind hsz
      cases v with
      | null => simp only [sizeV, printVal]; decide
      | bool b => cases b <;> (simp only [sizeV, printVal]; decide)
      | num m e =>
        obtain ⟨c, T, hc, -⟩ := printNum_head m e
        simp only [sizeV, printVal, hc, List.length_cons]
        omega
      | str s =>
        simp only [sizeV, printVal, printStr, List.length_cons]
        omega
      | arr xs =>
        cases xs with
        | nil => simp only [sizeV, sizeItems, printVal]; decide
        | cons x xs =>
          have h2 := ihI (x :: xs) ind (by simp only [sizeV] at hsz; omega)
          simp only [sizeV, printVal, List.length_cons, List.length_append,
            List.length_singleton]
          omega
      | obj fs =>
        cases fs with
        | nil => simp only [sizeV, sizeFields, printVal]; decide
        | cons f fs =>
          have h2 := ihF (f :: fs) ind (by simp only [sizeV] at hsz; omega)
          simp only [sizeV, printVal, List.length_cons, List.length_append,
            List.length_singleton]
          omega
    · intro xs ind hsz
      cases xs with
      | nil => simp [sizeItems]
      | cons x xs =>
        cases xs with
        | nil =>
          have h1 := ihV x (ind + g) (by simp only [sizeItems] at hsz; omega)
          simp only [sizeItems, printItemsP]
          omega
        | cons y ys =>
          have h1 := ihV x (ind + g) (by simp only [sizeItems] at hsz; omega)
          have h2 := ihI (y :: ys) ind (by simp only [sizeItems] at hsz ⊢; omega)
          simp only [sizeItems] at h2
          simp only [sizeItems, printItemsP, List.length_append, List.length_cons]
          omega
    · intro fs ind hsz
      cases fs with
      | nil => simp [sizeFields]
      | cons f fs =>
        obtain ⟨k, v⟩ := f
        cases fs with
        | nil =>
          have h1 := ihV v (ind + g) (by simp only [sizeFields] at hsz; omega)
          simp only [sizeFields, printFieldsP, List.length_append]
          omega
        | cons f2 fs2 =>
          have h1 := ihV v (ind + g) (by simp only [sizeFields] at hsz; omega)
          have h2 := ihF (f2 :: fs2) ind (by simp only [sizeFields] at hsz ⊢; omega)
          simp only [sizeFields] at h2
          simp only [sizeFields, printFieldsP, List.length_append, List.length_cons]
          omega

/-- `JSON.parse` of `JSON.stringify` recovers the value exactly. -/
theorem parseJson_stringify (v : JsonValue) (n : Nat) :
    parseJson (stringify v n) = .ok v := by
  have hsz : sizeV v ≤ (printVal (min n 10) 0 v).length + 1 := by
    have h := (size_le_print (min n 10) (sizeV v)).1 v 0 (le_refl _)
    omega
  have h1 := (parse_print_rt (min n 10) ((printVal (min n 10) 0 v).length + 1)).1
    v 0 [] [] hsz rfl rfl
  simp only [List.nil_append, List.append_nil] at h1
  unfold parseJson stringify
  rw [show (String.mk (printVal (min n 10) 0 v)).length = (printVal (min n 10) 0 v).length
    from rfl]
  rw [show (String.mk (printVal (min n 10) 0 v)).data = printVal (min n 10) 0 v from rfl]
  rw [h1]
  rfl

/-- C4 (explicit): for every valid JSON text `T` (strict parsing accepts it
with value `v`) and every indent `n ≥ 0`, `formatJson T n` succeeds with some
text `F`, `minifyJson F` succeeds with some text `M`, and parsing `M` yields a
value structurally equal to the value of `T` (textual equality of the
intermediate forms is not required). -/
theorem format_minify_roundtrip (T : String) (n : Nat) (v : JsonValue)
    (h : parseJson T = .ok v) :
    ∃ F M, formatJson T n = .ok F ∧ minifyJson F = .ok M ∧ parseJson M = .ok v := by
  refine ⟨stringify v n, stringify v 0, ?_, ?_, parseJson_stringify v 0⟩
  · unfold formatJson
    rw [h]
  · unfold minifyJson
    rw [parseJson_stringify v n]

/-- Witness for C4 at the valid JSON text `[1]` with indent 2. -/
theorem format_minify_roundtrip_witness :
    parseJson "[1]" = .ok (.arr [.num 1 0]) ∧
      ∃ F M, formatJson "[1]" 2 = .ok F ∧ minifyJson F = .ok M ∧
        parseJson M = .ok (.arr [.num 1 0]) :=
  ⟨rfl, format_minify_roundtrip "[1]" 2 (.arr [.num 1 0]) rfl⟩

end JsonFmt
